import Mathlib

/- Shallow embedding of the hds-rs record store (src/kv) over byte memory
   modeled as List Nat. Each u32 field is stored through toBytes/fromBytes
   (little-endian, one fixed choice of the native byte order the source
   relies on). Addresses and sizes are Nat: the Rust code computes them in
   u32, whose overflow panics in debug builds, so the theorems live in the
   non-overflowing regime that the WF invariant below enforces. The two
   explicit narrowing casts in the source (hasher.finish() as u32 and
   size as u32) are modeled with an explicit % 2^32. -/

/-- One past the largest u32 value. -/
def u32Mod : Nat := 4294967296

/-- The tombstone key written by forget (u32::MAX in the source). -/
def tombKey : Nat := 4294967295

/-- Little-endian byte encoding of a u32, as u32::to_ne_bytes. -/
def toBytes (v : Nat) : List Nat :=
  [v % 256, v / 256 % 256, v / 65536 % 256, v / 16777216 % 256]

/-- Decoding of four bytes into a u32, as u32::from_ne_bytes. -/
def fromBytes (l : List Nat) : Nat :=
  match l with
  | [a, b, c, d] => a + 256 * b + 65536 * c + 16777216 * d
  | _ => 0

/-- The single backend error of src/kv/datastore/mod.rs (SliceDataStoreError). -/
inductive SliceErr where
  | outOfMemory
deriving DecidableEq

/-- The single backend error of src/kv/datastore.rs (InMemoryKvDataStoreError). -/
inductive InMemErr where
  | outOfMemory
deriving DecidableEq

/-- KvDataAccess read for the borrowed byte slice, from
    src/kv/datastore/mod.rs: fails iff address + dst.len() > self.len(),
    otherwise fills dst completely and returns dst.len(). -/
def sliceReadB (s : List Nat) (addr len : Nat) : Except SliceErr (List Nat × Nat) :=
  if addr + len > s.length then .error .outOfMemory
  else .ok ((s.drop addr).take len, len)

/-- KvDataAccess write for the borrowed byte slice, from
    src/kv/datastore/mod.rs: fails iff address + data.len() > self.len(),
    otherwise copies data in place and returns data.len(). -/
def sliceWriteB (s : List Nat) (addr : Nat) (data : List Nat) : Except SliceErr (List Nat × Nat) :=
  if addr + data.length > s.length then .error .outOfMemory
  else .ok (s.take addr ++ data ++ s.drop (addr + data.length), data.length)

/-- StaticDataStore read (src/kv/datastore/static.rs) delegates to the
    slice implementation over its fixed array. -/
def staticRead (s : List Nat) (addr len : Nat) : Except SliceErr (List Nat × Nat) :=
  sliceReadB s addr len

/-- StaticDataStore write (src/kv/datastore/static.rs) delegates to the
    slice implementation over its fixed array. -/
def staticWrite (s : List Nat) (addr : Nat) (data : List Nat) : Except SliceErr (List Nat × Nat) :=
  sliceWriteB s addr data

/-- InMemoryKvDataStore read (src/kv/datastore.rs): note the bound is
    end >= self.store.len(), rejecting also the exact-fit access. -/
def inMemRead (s : List Nat) (addr len : Nat) : Except InMemErr (List Nat × Nat) :=
  if addr + len ≥ s.length then .error .outOfMemory
  else .ok ((s.drop addr).take len, len)

/-- InMemoryKvDataStore write (src/kv/datastore.rs): note the bound is
    end >= self.store.len(), rejecting also the exact-fit access. -/
def inMemWrite (s : List Nat) (addr : Nat) (data : List Nat) : Except InMemErr (List Nat × Nat) :=
  if addr + data.length ≥ s.length then .error .outOfMemory
  else .ok (s.take addr ++ data ++ s.drop (addr + data.length), data.length)

/-- HeapDataStore write (src/kv/datastore/heap.rs): tries the slice write
    on the backing vector; on OutOfMemory it appends store.len() zero bytes
    (self.extend over 0..store_size) and calls itself again. The source
    recursion has no terminating bound of its own, so the embedding carries
    an explicit fuel; none models a run that exhausts the fuel (with a
    zero-length store the source recursion never terminates). -/
def heapWriteFuel : Nat → List Nat → Nat → List Nat → Option (List Nat × Nat)
  | 0, _, _, _ => none
  | fuel + 1, store, addr, data =>
    match sliceWriteB store addr data with
    | .error .outOfMemory => heapWriteFuel fuel (store ++ List.replicate store.length 0) addr data
    | .ok r => some r

/-- HeapDataStore read delegates to the slice read and never grows. -/
def heapRead (s : List Nat) (addr len : Nat) : Except SliceErr (List Nat × Nat) :=
  sliceReadB s addr len

/-- Store-level errors of src/kv/mod.rs (KvError). -/
inductive KvErr where
  | conflict
  | notFound
  | sizeMismatch
  | store (e : SliceErr)
deriving DecidableEq

/-- Kv::read_all over the slice backend. The source loop accumulates
    short reads until the destination is full; the slice backend transfers
    everything or fails, so the loop makes exactly one backend call, and
    none at all for an empty destination. -/
def readAll (s : List Nat) (addr len : Nat) : Except KvErr (List Nat) :=
  if len = 0 then .ok []
  else
    match sliceReadB s addr len with
    | .error e => .error (.store e)
    | .ok (d, _) => .ok d

/-- Kv::write_all over the slice backend; same one-call reduction of the
    accumulation loop as readAll. -/
def writeAll (s : List Nat) (addr : Nat) (data : List Nat) : Except KvErr (List Nat) :=
  if data.length = 0 then .ok s
  else
    match sliceWriteB s addr data with
    | .error e => .error (.store e)
    | .ok (s2, _) => .ok s2

/-- Kv::read_u32. -/
def readU32 (s : List Nat) (addr : Nat) : Except KvErr Nat :=
  match readAll s addr 4 with
  | .error e => .error e
  | .ok l => .ok (fromBytes l)

/-- Kv::write_u32. toBytes only depends on the value mod 2^32, exactly as
    storing a u32 does. -/
def writeU32 (s : List Nat) (addr : Nat) (v : Nat) : Except KvErr (List Nat) :=
  writeAll s addr (toBytes v)

/-- Kv::size: the header size field at offset 0. -/
def sizeOp (s : List Nat) : Except KvErr Nat := readU32 s 0

/-- Kv::amount: the header amount field at offset 4. -/
def amountOp (s : List Nat) : Except KvErr Nat := readU32 s 4

/-- The loop body of Kv::find: scan n remaining records from addr, reading
    the key and size fields of each, returning the first address whose key
    field equals the target. -/
def findAux (s : List Nat) (key : Nat) : Nat → Nat → Except KvErr (Option Nat)
  | _, 0 => .ok none
  | addr, n + 1 =>
    match readU32 s addr with
    | .error e => .error e
    | .ok foundKey =>
      match readU32 s (addr + 4) with
      | .error e => .error e
      | .ok size =>
        if key = foundKey then .ok (some addr)
        else findAux s key (addr + 8 + size) n

/-- Kv::find: read amount, then scan that many records from address 8. -/
def find (s : List Nat) (key : Nat) : Except KvErr (Option Nat) :=
  match readU32 s 4 with
  | .error e => .error e
  | .ok amount => findAux s key 8 amount

/-- Kv::size_inc: read the size header, add, write back. -/
def sizeInc (s : List Nat) (inc : Nat) : Except KvErr (List Nat) :=
  match readU32 s 0 with
  | .error e => .error e
  | .ok old => writeU32 s 0 (old + inc)

/-- Kv::amount_inc: read the amount header, add, write back. -/
def amountInc (s : List Nat) (inc : Nat) : Except KvErr (List Nat) :=
  match readU32 s 4 with
  | .error e => .error e
  | .ok old => writeU32 s 4 (old + inc)

/-- Kv::insert after hashing, threading the mutable store state: on an
    early error the state mutated so far is kept, exactly as the failing
    Rust method leaves its partial writes behind. The value is its raw
    byte sequence; size_of T is its length, cast to u32 where the source
    casts. -/
def insertRaw (s : List Nat) (key : Nat) (v : List Nat) : List Nat × Except KvErr Unit :=
  match find s key with
  | .error e => (s, .error e)
  | .ok (some _) => (s, .error .conflict)
  | .ok none =>
    match readU32 s 0 with
    | .error e => (s, .error e)
    | .ok sz =>
      match writeU32 s (sz + 8) key with
      | .error e => (s, .error e)
      | .ok s1 =>
        match writeU32 s1 (sz + 8 + 4) (v.length % u32Mod) with
        | .error e => (s1, .error e)
        | .ok s2 =>
          match writeAll s2 (sz + 8 + 8) v with
          | .error e => (s2, .error e)
          | .ok s3 =>
            match amountInc s3 1 with
            | .error e => (s3, .error e)
            | .ok s4 =>
              match sizeInc s4 (8 + v.length % u32Mod) with
              | .error e => (s4, .error e)
              | .ok s5 => (s5, .ok ())

/-- Kv::update after hashing: find, check the stored size against the
    value size, overwrite the data bytes in place. -/
def updateRaw (s : List Nat) (key : Nat) (v : List Nat) : List Nat × Except KvErr Unit :=
  match find s key with
  | .error e => (s, .error e)
  | .ok none => (s, .error .notFound)
  | .ok (some a) =>
    match readU32 s (a + 4) with
    | .error e => (s, .error e)
    | .ok foundSize =>
      if foundSize ≠ v.length then (s, .error .sizeMismatch)
      else
        match writeAll s (a + 8) v with
        | .error e => (s, .error e)
        | .ok s1 => (s1, .ok ())

/-- Kv::get after hashing: find, check the stored size against the
    requested size, copy the stored bytes out. The method only reads. -/
def getRaw (s : List Nat) (key : Nat) (tsize : Nat) : Except KvErr (Option (List Nat)) :=
  match find s key with
  | .error e => .error e
  | .ok none => .ok none
  | .ok (some a) =>
    match readU32 s (a + 4) with
    | .error e => .error e
    | .ok foundSize =>
      if foundSize ≠ tsize then .error .sizeMismatch
      else
        match readAll s (a + 8) tsize with
        | .error e => .error e
        | .ok d => .ok (some d)

/-- The data-wiping loop of Kv::forget: write the byte 255 at each of
    count consecutive addresses starting at ptr. -/
def wipeFF (s : List Nat) (ptr : Nat) : Nat → List Nat × Except KvErr Unit
  | 0 => (s, .ok ())
  | n + 1 =>
    match writeAll s ptr [255] with
    | .error e => (s, .error e)
    | .ok s1 => wipeFF s1 (ptr + 1) n

/-- Kv::forget after hashing: find, keep the size field, overwrite the key
    field with u32::MAX and the data bytes with 255. -/
def forgetRaw (s : List Nat) (key : Nat) : List Nat × Except KvErr Unit :=
  match find s key with
  | .error e => (s, .error e)
  | .ok none => (s, .error .notFound)
  | .ok (some a) =>
    match readU32 s (a + 4) with
    | .error e => (s, .error e)
    | .ok size =>
      match writeU32 s a tombKey with
      | .error e => (s, .error e)
      | .ok s1 => wipeFF s1 (a + 8) size

/-- Kv::exists after hashing: true iff find returns an address. -/
def existsRaw (s : List Nat) (key : Nat) : Except KvErr Bool :=
  match find s key with
  | .error e => .error e
  | .ok o => .ok o.isSome

/-- Kv::reset: zero the two header fields, nothing else. -/
def resetRaw (s : List Nat) : List Nat × Except KvErr Unit :=
  match writeU32 s 0 0 with
  | .error e => (s, .error e)
  | .ok s1 =>
    match writeU32 s1 4 0 with
    | .error e => (s1, .error e)
    | .ok s2 => (s2, .ok ())

/-- The pluggable hashing capability (core::hash::Hasher): a state type
    with a byte-feeding write and a finish. -/
structure HasherOps (η : Type) where
  hwrite : η → List Nat → η
  hfinish : η → Nat

/-- Kv::hash_key: clone the stored hasher, feed the key bytes, truncate
    finish() to u32. The stored hasher is read, never mutated. -/
def hashKey (ops : HasherOps η) (h : η) (k : List Nat) : Nat :=
  ops.hfinish (ops.hwrite h k) % u32Mod

/-- The Kv store handle: one hasher instance, one backend instance. -/
structure Kv (η : Type) where
  hasher : η
  store : List Nat

/-- Public Kv::insert. -/
def Kv.insert (ops : HasherOps η) (kv : Kv η) (k v : List Nat) : Kv η × Except KvErr Unit :=
  let r := insertRaw kv.store (hashKey ops kv.hasher k) v
  (⟨kv.hasher, r.1⟩, r.2)

/-- Public Kv::update. -/
def Kv.update (ops : HasherOps η) (kv : Kv η) (k v : List Nat) : Kv η × Except KvErr Unit :=
  let r := updateRaw kv.store (hashKey ops kv.hasher k) v
  (⟨kv.hasher, r.1⟩, r.2)

/-- Public Kv::get at the byte size of the requested type. -/
def Kv.get (ops : HasherOps η) (kv : Kv η) (k : List Nat) (tsize : Nat) :
    Except KvErr (Option (List Nat)) :=
  getRaw kv.store (hashKey ops kv.hasher k) tsize

/-- Public Kv::forget. -/
def Kv.forget (ops : HasherOps η) (kv : Kv η) (k : List Nat) : Kv η × Except KvErr Unit :=
  let r := forgetRaw kv.store (hashKey ops kv.hasher k)
  (⟨kv.hasher, r.1⟩, r.2)

/-- Public Kv::exists. -/
def Kv.existsKv (ops : HasherOps η) (kv : Kv η) (k : List Nat) : Except KvErr Bool :=
  existsRaw kv.store (hashKey ops kv.hasher k)

/-- Public Kv::reset. -/
def Kv.reset (kv : Kv η) : Kv η × Except KvErr Unit :=
  let r := resetRaw kv.store
  (⟨kv.hasher, r.1⟩, r.2)

/- ===== Specification model: the abstract record list and the layout
   invariant characterizing states reachable through the engine. ===== -/

/-- Byte encoding of one record: key field, size field, data bytes. -/
def encRec (r : Nat × List Nat) : List Nat :=
  toBytes r.1 ++ toBytes r.2.length ++ r.2

/-- Byte encoding of a record sequence, back to back, no padding. -/
def encRecs : List (Nat × List Nat) → List Nat
  | [] => []
  | r :: rest => encRec r ++ encRecs rest

/-- The pure counterpart of the find scan over the abstract record list:
    address of the first record whose key field equals the target. -/
def findModel (rs : List (Nat × List Nat)) (key : Nat) (addr : Nat) : Option Nat :=
  match rs with
  | [] => none
  | r :: rest => if key = r.1 then some addr else findModel rest key (addr + 8 + r.2.length)

/-- Two records may share a key field only if both carry the tombstone
    sentinel; live keys are unique. -/
def KeyOk (a b : Nat × List Nat) : Prop :=
  a.1 ≠ b.1 ∨ (a.1 = tombKey ∧ b.1 = tombKey)

/-- Well-formed store layout: an 8-byte header holding the total record
    bytes and the record count, the encoded records, then free space. The
    length bound keeps every u32 field of the layout exact. -/
structure WF (s : List Nat) (rs : List (Nat × List Nat)) : Prop where
  layout : ∃ pad, s = toBytes (encRecs rs).length ++ toBytes rs.length ++ encRecs rs ++ pad
  keys_lt : ∀ r ∈ rs, r.1 < u32Mod
  len_lt : s.length < u32Mod
  uniq : List.Pairwise KeyOk rs

/- ===== Basic byte and list lemmas. ===== -/

theorem toBytes_length (v : Nat) : (toBytes v).length = 4 := rfl

theorem fromBytes_toBytes (v : Nat) (h : v < u32Mod) : fromBytes (toBytes v) = v := by
  simp only [toBytes, fromBytes, u32Mod] at *
  omega

theorem encRec_length (r : Nat × List Nat) : (encRec r).length = 8 + r.2.length := by
  simp [encRec, toBytes]
  omega

theorem encRecs_append (l1 l2 : List (Nat × List Nat)) :
    encRecs (l1 ++ l2) = encRecs l1 ++ encRecs l2 := by
  induction l1 with
  | nil => simp [encRecs]
  | cons r rest ih => simp [encRecs, ih]

theorem encRecs_length_ge (rs : List (Nat × List Nat)) :
    8 * rs.length ≤ (encRecs rs).length := by
  induction rs with
  | nil => simp [encRecs]
  | cons r rest ih =>
    simp only [encRecs, List.length_append, List.length_cons, encRec_length]
    omega

theorem take_app (pre post : List Nat) : (pre ++ post).take pre.length = pre := by
  simp

theorem drop_app (pre post : List Nat) : (pre ++ post).drop pre.length = post := by
  simp

theorem drop_app_plus (pre post : List Nat) (k : Nat) :
    (pre ++ post).drop (pre.length + k) = post.drop k := by
  rw [List.drop_append_eq_append_drop]
  simp

theorem take_app_of_le (pre post : List Nat) (k : Nat) (h : k ≤ pre.length) :
    (pre ++ post).take k = pre.take k := by
  rw [List.take_append_eq_append_take]
  simp [Nat.sub_eq_zero_of_le h]

/- ===== Success and failure shapes of the primitive memory operations. ===== -/

theorem readAll_ok (s : List Nat) (addr len : Nat) (h : addr + len ≤ s.length) :
    readAll s addr len = .ok ((s.drop addr).take len) := by
  by_cases h0 : len = 0
  · subst h0; simp [readAll]
  · simp [readAll, h0, sliceReadB, Nat.not_lt.mpr h]

theorem readAll_err (s : List Nat) (addr len : Nat) (h : s.length < addr + len) (h0 : len ≠ 0) :
    readAll s addr len = .error (.store .outOfMemory) := by
  simp [readAll, h0, sliceReadB, h]

theorem writeAll_ok (s : List Nat) (addr : Nat) (data : List Nat)
    (h : addr + data.length ≤ s.length) :
    writeAll s addr data = .ok (s.take addr ++ data ++ s.drop (addr + data.length)) := by
  by_cases h0 : data.length = 0
  · have hdata : data = [] := List.length_eq_zero.mp h0
    subst hdata
    simp [writeAll, List.take_append_drop]
  · simp [writeAll, h0, sliceWriteB, Nat.not_lt.mpr h]

theorem writeAll_err (s : List Nat) (addr : Nat) (data : List Nat)
    (h : s.length < addr + data.length) (h0 : data.length ≠ 0) :
    writeAll s addr data = .error (.store .outOfMemory) := by
  simp [writeAll, h0, sliceWriteB, h]

theorem writeAll_length (s s2 : List Nat) (addr : Nat) (data : List Nat)
    (h : writeAll s addr data = .ok s2) : s2.length = s.length := by
  by_cases h0 : data.length = 0
  · simp [writeAll, h0] at h
    subst h
    rfl
  · by_cases hb : addr + data.length ≤ s.length
    · rw [writeAll_ok s addr data hb] at h
      cases h
      simp only [List.length_append, List.length_take, List.length_drop]
      omega
    · rw [writeAll_err s addr data (Nat.lt_of_not_le hb) h0] at h
      cases h

theorem take4_toBytes (v : Nat) (post : List Nat) : (toBytes v ++ post).take 4 = toBytes v := by
  simp [toBytes]

theorem take_whole_app (pre rest : List Nat) : (pre ++ rest).take pre.length = pre := by
  rw [take_app_of_le _ _ _ (Nat.le_refl _), List.take_length]

/-- Reading a u32 field laid down at the end of a known prefix. -/
theorem readU32_at (pre post : List Nat) (v : Nat) (hv : v < u32Mod) :
    readU32 (pre ++ toBytes v ++ post) pre.length = .ok v := by
  have hb : pre.length + 4 ≤ (pre ++ toBytes v ++ post).length := by
    simp [toBytes]
  rw [readU32, readAll_ok _ _ _ hb]
  rw [List.append_assoc, drop_app, take4_toBytes]
  simp [fromBytes_toBytes v hv]

/-- Writing a u32 field over a 4-byte region at the end of a known prefix. -/
theorem writeU32_at (pre mid post : List Nat) (v : Nat) (hm : mid.length = 4) :
    writeU32 (pre ++ mid ++ post) pre.length v = .ok (pre ++ toBytes v ++ post) := by
  have hb : pre.length + (toBytes v).length ≤ (pre ++ mid ++ post).length := by
    simp only [toBytes_length, List.length_append, hm]
    omega
  rw [writeU32, writeAll_ok _ _ _ hb]
  have h1 : (pre ++ mid ++ post).take pre.length = pre := by
    rw [List.append_assoc]
    exact take_whole_app pre (mid ++ post)
  have h2 : (pre ++ mid ++ post).drop (pre.length + (toBytes v).length) = post := by
    rw [toBytes_length, ← hm, List.append_assoc, drop_app_plus, drop_app]
  rw [h1, h2]

/-- Writing a same-length block over a region at the end of a known prefix. -/
theorem writeAll_at (pre mid post data : List Nat) (hm : mid.length = data.length) :
    writeAll (pre ++ mid ++ post) pre.length data = .ok (pre ++ data ++ post) := by
  have hb : pre.length + data.length ≤ (pre ++ mid ++ post).length := by
    simp only [List.length_append, ← hm]
    omega
  rw [writeAll_ok _ _ _ hb]
  have h1 : (pre ++ mid ++ post).take pre.length = pre := by
    rw [List.append_assoc]
    exact take_whole_app pre (mid ++ post)
  have h2 : (pre ++ mid ++ post).drop (pre.length + data.length) = post := by
    rw [← hm, List.append_assoc, drop_app_plus, drop_app]
  rw [h1, h2]

/-- Reading a block laid down at the end of a known prefix. -/
theorem readAll_at (pre mid post : List Nat) :
    readAll (pre ++ mid ++ post) pre.length mid.length = .ok mid := by
  have hb : pre.length + mid.length ≤ (pre ++ mid ++ post).length := by
    simp
  rw [readAll_ok _ _ _ hb, List.append_assoc, drop_app, take_app]

/- ===== Bounds derived from the WF invariant. ===== -/

theorem u32Mod_pos : 0 < u32Mod := by decide

theorem hashKey_lt (ops : HasherOps η) (h : η) (k : List Nat) : hashKey ops h k < u32Mod :=
  Nat.mod_lt _ u32Mod_pos

theorem WF.len_decomp {s : List Nat} {rs : List (Nat × List Nat)} (hwf : WF s rs) :
    s.length = 8 + (encRecs rs).length + (s.length - 8 - (encRecs rs).length) ∧
    8 + (encRecs rs).length ≤ s.length := by
  obtain ⟨pad, hlay⟩ := hwf.layout
  rw [hlay]
  simp only [List.length_append, toBytes_length]
  omega

theorem WF.total_lt {s : List Nat} {rs : List (Nat × List Nat)} (hwf : WF s rs) :
    (encRecs rs).length < u32Mod := by
  have h1 := hwf.len_decomp.2
  have h2 := hwf.len_lt
  omega

theorem WF.amount_lt {s : List Nat} {rs : List (Nat × List Nat)} (hwf : WF s rs) :
    rs.length < u32Mod := by
  have h1 := encRecs_length_ge rs
  have h2 := hwf.total_lt
  omega

theorem WF.size_lt {s : List Nat} {rs : List (Nat × List Nat)} (hwf : WF s rs) :
    ∀ r ∈ rs, r.2.length < u32Mod := by
  intro r hr
  obtain ⟨l1, l2, hsplit⟩ := List.append_of_mem hr
  have h1 := hwf.total_lt
  rw [hsplit] at h1
  rw [encRecs_append] at h1
  simp only [encRecs, List.length_append, encRec_length] at h1
  omega

theorem WF.size_read {s : List Nat} {rs : List (Nat × List Nat)} (hwf : WF s rs) :
    readU32 s 0 = .ok (encRecs rs).length := by
  obtain ⟨pad, hlay⟩ := hwf.layout
  have h := readU32_at [] (toBytes rs.length ++ (encRecs rs ++ pad)) (encRecs rs).length hwf.total_lt
  simp only [List.nil_append, List.length_nil] at h
  rw [hlay, List.append_assoc, List.append_assoc]
  exact h

theorem WF.amount_read {s : List Nat} {rs : List (Nat × List Nat)} (hwf : WF s rs) :
    readU32 s 4 = .ok rs.length := by
  obtain ⟨pad, hlay⟩ := hwf.layout
  have h := readU32_at (toBytes (encRecs rs).length) (encRecs rs ++ pad) rs.length hwf.amount_lt
  rw [toBytes_length] at h
  rw [hlay, List.append_assoc]
  exact h

/- ===== The scan: findAux agrees with the pure findModel. ===== -/

theorem findModel_none_iff (rs : List (Nat × List Nat)) (key a : Nat) :
    findModel rs key a = none ↔ ∀ r ∈ rs, key ≠ r.1 := by
  induction rs generalizing a with
  | nil => simp [findModel]
  | cons r rest ih =>
    by_cases h : key = r.1
    · simp [findModel, h]
    · simp [findModel, h, ih]

theorem findModel_append_right (l1 l2 : List (Nat × List Nat)) (key a : Nat)
    (h : ∀ r ∈ l1, key ≠ r.1) :
    findModel (l1 ++ l2) key a = findModel l2 key (a + (encRecs l1).length) := by
  induction l1 generalizing a with
  | nil => simp [encRecs]
  | cons r rest ih =>
    have hr : key ≠ r.1 := h r (by simp)
    have hrest : ∀ x ∈ rest, key ≠ x.1 := fun x hx => h x (by simp [hx])
    rw [List.cons_append]
    simp only [findModel, if_neg hr]
    rw [ih _ hrest]
    congr 1
    simp only [encRecs, List.length_append, encRec_length]
    omega

theorem findModel_some_split (rs : List (Nat × List Nat)) (key a b : Nat)
    (h : findModel rs key b = some a) :
    ∃ l1 r l2, rs = l1 ++ r :: l2 ∧ key = r.1 ∧ (∀ x ∈ l1, key ≠ x.1) ∧
      a = b + (encRecs l1).length := by
  induction rs generalizing b with
  | nil => simp [findModel] at h
  | cons r rest ih =>
    simp only [findModel] at h
    by_cases hk : key = r.1
    · rw [if_pos hk] at h
      cases h
      exact ⟨[], r, rest, rfl, hk, by simp, by simp [encRecs]⟩
    · rw [if_neg hk] at h
      obtain ⟨l1, r', l2, hrs, hkey, hfirst, ha⟩ := ih _ h
      refine ⟨r :: l1, r', l2, by rw [List.cons_append, hrs], hkey, ?_, ?_⟩
      · intro x hx
        rcases List.mem_cons.mp hx with rfl | hx2
        · exact hk
        · exact hfirst x hx2
      · rw [ha]
        simp only [encRecs, List.length_append, encRec_length]
        omega

theorem findAux_spec (s : List Nat) (key : Nat) (rs : List (Nat × List Nat)) :
    ∀ (pre post : List Nat), s = pre ++ encRecs rs ++ post →
    (∀ r ∈ rs, r.1 < u32Mod) → (∀ r ∈ rs, r.2.length < u32Mod) →
    findAux s key pre.length rs.length = .ok (findModel rs key pre.length) := by
  induction rs with
  | nil =>
    intro pre post _ _ _
    simp [findAux, findModel]
  | cons r rest ih =>
    intro pre post hs hk hsz
    have hk1 : r.1 < u32Mod := hk r (by simp)
    have hsz1 : r.2.length < u32Mod := hsz r (by simp)
    have h1 : readU32 s pre.length = .ok r.1 := by
      have hshape : s = pre ++ toBytes r.1 ++ (toBytes r.2.length ++ (r.2 ++ (encRecs rest ++ post))) := by
        rw [hs]
        simp only [encRecs, encRec, List.append_assoc]
      rw [hshape]
      exact readU32_at _ _ _ hk1
    have h2 : readU32 s (pre.length + 4) = .ok r.2.length := by
      have hshape : s = (pre ++ toBytes r.1) ++ toBytes r.2.length ++ (r.2 ++ (encRecs rest ++ post)) := by
        rw [hs]
        simp only [encRecs, encRec, List.append_assoc]
      have hlen : (pre ++ toBytes r.1).length = pre.length + 4 := by
        simp [toBytes_length]
      rw [hshape, ← hlen]
      exact readU32_at _ _ _ hsz1
    rw [List.length_cons, findAux, h1, h2]
    by_cases hkey : key = r.1
    · simp [findModel, hkey]
    · simp only [if_neg hkey, findModel]
      have hkrest : ∀ x ∈ rest, x.1 < u32Mod := fun x hx => hk x (by simp [hx])
      have hszrest : ∀ x ∈ rest, x.2.length < u32Mod := fun x hx => hsz x (by simp [hx])
      have hshape2 : s = (pre ++ encRec r) ++ encRecs rest ++ post := by
        rw [hs]
        simp only [encRecs, List.append_assoc]
      have hlen2 : (pre ++ encRec r).length = pre.length + 8 + r.2.length := by
        rw [List.length_append, encRec_length]
        omega
      have := ih (pre ++ encRec r) post hshape2 hkrest hszrest
      rw [hlen2] at this
      rw [this]

theorem find_spec (s : List Nat) (rs : List (Nat × List Nat)) (key : Nat) (hwf : WF s rs) :
    find s key = .ok (findModel rs key 8) := by
  obtain ⟨pad, hlay⟩ := hwf.layout
  rw [find, hwf.amount_read]
  have hkeys : ∀ r ∈ rs, r.1 < u32Mod := hwf.keys_lt
  have hshape : s = (toBytes (encRecs rs).length ++ toBytes rs.length) ++ encRecs rs ++ pad := by
    rw [hlay]
  have h := findAux_spec s key rs (toBytes (encRecs rs).length ++ toBytes rs.length) pad hshape hkeys hwf.size_lt
  have hlen8 : (toBytes (encRecs rs).length ++ toBytes rs.length).length = 8 := by
    simp [toBytes_length]
  rw [hlen8] at h
  exact h

/- ===== Characterization of a successful insert. ===== -/

theorem toBytes_mod (v : Nat) : toBytes (v % u32Mod) = toBytes v := by
  simp only [toBytes, u32Mod, List.cons.injEq, and_true]
  omega

theorem split_pad (P pad : List Nat) (k : Nat) :
    P ++ pad = P ++ pad.take k ++ pad.drop k := by
  rw [List.append_assoc, List.take_append_drop]

theorem drop_chain (pad : List Nat) (vl : Nat) :
    ((pad.drop 4).drop 4).drop vl = pad.drop (8 + vl) := by
  simp only [List.drop_drop]

theorem insertRaw_ok_of (s : List Nat) (rs : List (Nat × List Nat)) (key : Nat) (v : List Nat)
    (hwf : WF s rs) (hnone : ∀ r ∈ rs, key ≠ r.1)
    (hsp : 16 + (encRecs rs).length + v.length ≤ s.length) :
    insertRaw s key v =
      (toBytes ((encRecs rs).length + 8 + v.length) ++ toBytes (rs.length + 1) ++
        encRecs rs ++ encRec (key, v) ++ s.drop (16 + (encRecs rs).length + v.length), .ok ()) := by
  obtain ⟨pad, hlay⟩ := hwf.layout
  have htot := hwf.total_lt
  have hamt := hwf.amount_lt
  have hlen := hwf.len_lt
  have hslen : s.length = 8 + (encRecs rs).length + pad.length := by
    rw [hlay]
    simp only [List.length_append, toBytes_length]
  have hpadlen : 8 + v.length ≤ pad.length := by omega
  have hvlt : v.length < u32Mod := by omega
  have hfind : find s key = .ok none := by
    rw [find_spec s rs key hwf, (findModel_none_iff rs key 8).mpr hnone]
  have hsz := hwf.size_read
  have hP0len : (toBytes (encRecs rs).length ++ toBytes rs.length ++ encRecs rs).length
      = (encRecs rs).length + 8 := by
    simp only [List.length_append, toBytes_length]
    omega
  have hpad4 : (pad.take 4).length = 4 := by
    rw [List.length_take]
    omega
  have e1 : writeU32 s ((encRecs rs).length + 8) key
      = .ok (toBytes (encRecs rs).length ++ toBytes rs.length ++ encRecs rs ++ toBytes key ++ pad.drop 4) := by
    have hs2 : s = toBytes (encRecs rs).length ++ toBytes rs.length ++ encRecs rs ++ pad.take 4 ++ pad.drop 4 := by
      rw [hlay]
      exact split_pad _ pad 4
    rw [hs2, ← hP0len]
    exact writeU32_at _ (pad.take 4) (pad.drop 4) key hpad4
  have hpre1len : (toBytes (encRecs rs).length ++ toBytes rs.length ++ encRecs rs ++ toBytes key).length
      = (encRecs rs).length + 8 + 4 := by
    simp only [List.length_append, toBytes_length]
    omega
  have hq1t : ((pad.drop 4).take 4).length = 4 := by
    rw [List.length_take, List.length_drop]
    omega
  have e2 : writeU32 (toBytes (encRecs rs).length ++ toBytes rs.length ++ encRecs rs ++ toBytes key ++ pad.drop 4)
      ((encRecs rs).length + 8 + 4) (v.length % u32Mod)
      = .ok (toBytes (encRecs rs).length ++ toBytes rs.length ++ encRecs rs ++ toBytes key ++
          toBytes v.length ++ (pad.drop 4).drop 4) := by
    have hsplit := split_pad (toBytes (encRecs rs).length ++ toBytes rs.length ++ encRecs rs ++ toBytes key) (pad.drop 4) 4
    rw [hsplit, ← hpre1len]
    have h := writeU32_at (toBytes (encRecs rs).length ++ toBytes rs.length ++ encRecs rs ++ toBytes key)
      ((pad.drop 4).take 4) ((pad.drop 4).drop 4) (v.length % u32Mod) hq1t
    rw [toBytes_mod] at h
    exact h
  have hpre2len : (toBytes (encRecs rs).length ++ toBytes rs.length ++ encRecs rs ++ toBytes key ++ toBytes v.length).length
      = (encRecs rs).length + 8 + 8 := by
    simp only [List.length_append, toBytes_length]
    omega
  have hq2t : (((pad.drop 4).drop 4).take v.length).length = v.length := by
    simp only [List.length_take, List.length_drop]
    omega
  have e3 : writeAll (toBytes (encRecs rs).length ++ toBytes rs.length ++ encRecs rs ++ toBytes key ++
        toBytes v.length ++ (pad.drop 4).drop 4) ((encRecs rs).length + 8 + 8) v
      = .ok (toBytes (encRecs rs).length ++ toBytes rs.length ++ encRecs rs ++ toBytes key ++
          toBytes v.length ++ v ++ ((pad.drop 4).drop 4).drop v.length) := by
    have hsplit := split_pad (toBytes (encRecs rs).length ++ toBytes rs.length ++ encRecs rs ++ toBytes key ++ toBytes v.length)
      ((pad.drop 4).drop 4) v.length
    rw [hsplit, ← hpre2len]
    exact writeAll_at _ _ _ v hq2t
  have hshape3 : toBytes (encRecs rs).length ++ toBytes rs.length ++ encRecs rs ++ toBytes key ++
        toBytes v.length ++ v ++ ((pad.drop 4).drop 4).drop v.length
      = toBytes (encRecs rs).length ++ toBytes rs.length ++
        (encRecs rs ++ (toBytes key ++ (toBytes v.length ++ (v ++ ((pad.drop 4).drop 4).drop v.length)))) := by
    simp only [List.append_assoc]
  have e4 : amountInc (toBytes (encRecs rs).length ++ toBytes rs.length ++ encRecs rs ++ toBytes key ++
        toBytes v.length ++ v ++ ((pad.drop 4).drop 4).drop v.length) 1
      = .ok (toBytes (encRecs rs).length ++ toBytes (rs.length + 1) ++
          (encRecs rs ++ (toBytes key ++ (toBytes v.length ++ (v ++ ((pad.drop 4).drop 4).drop v.length))))) := by
    have hread : readU32 (toBytes (encRecs rs).length ++ toBytes rs.length ++ encRecs rs ++ toBytes key ++
          toBytes v.length ++ v ++ ((pad.drop 4).drop 4).drop v.length) 4 = .ok rs.length := by
      rw [hshape3]
      have h := readU32_at (toBytes (encRecs rs).length)
        (encRecs rs ++ (toBytes key ++ (toBytes v.length ++ (v ++ ((pad.drop 4).drop 4).drop v.length))))
        rs.length hamt
      rw [toBytes_length] at h
      exact h
    have hwrite : writeU32 (toBytes (encRecs rs).length ++ toBytes rs.length ++ encRecs rs ++ toBytes key ++
          toBytes v.length ++ v ++ ((pad.drop 4).drop 4).drop v.length) 4 (rs.length + 1)
        = .ok (toBytes (encRecs rs).length ++ toBytes (rs.length + 1) ++
            (encRecs rs ++ (toBytes key ++ (toBytes v.length ++ (v ++ ((pad.drop 4).drop 4).drop v.length))))) := by
      rw [hshape3]
      have h := writeU32_at (toBytes (encRecs rs).length) (toBytes rs.length)
        (encRecs rs ++ (toBytes key ++ (toBytes v.length ++ (v ++ ((pad.drop 4).drop 4).drop v.length))))
        (rs.length + 1) (toBytes_length _)
      rw [toBytes_length] at h
      exact h
    simp only [amountInc, hread, hwrite]
  have e5 : sizeInc (toBytes (encRecs rs).length ++ toBytes (rs.length + 1) ++
        (encRecs rs ++ (toBytes key ++ (toBytes v.length ++ (v ++ ((pad.drop 4).drop 4).drop v.length)))))
        (8 + v.length % u32Mod)
      = .ok (toBytes ((encRecs rs).length + 8 + v.length) ++ toBytes (rs.length + 1) ++
          (encRecs rs ++ (toBytes key ++ (toBytes v.length ++ (v ++ ((pad.drop 4).drop 4).drop v.length))))) := by
    have hassoc : toBytes (encRecs rs).length ++ toBytes (rs.length + 1) ++
          (encRecs rs ++ (toBytes key ++ (toBytes v.length ++ (v ++ ((pad.drop 4).drop 4).drop v.length))))
        = toBytes (encRecs rs).length ++ (toBytes (rs.length + 1) ++
          (encRecs rs ++ (toBytes key ++ (toBytes v.length ++ (v ++ ((pad.drop 4).drop 4).drop v.length))))) := by
      simp only [List.append_assoc]
    have hread : readU32 (toBytes (encRecs rs).length ++ toBytes (rs.length + 1) ++
          (encRecs rs ++ (toBytes key ++ (toBytes v.length ++ (v ++ ((pad.drop 4).drop 4).drop v.length))))) 0
        = .ok (encRecs rs).length := by
      rw [hassoc]
      have h := readU32_at [] (toBytes (rs.length + 1) ++
        (encRecs rs ++ (toBytes key ++ (toBytes v.length ++ (v ++ ((pad.drop 4).drop 4).drop v.length)))))
        (encRecs rs).length htot
      simp only [List.nil_append, List.length_nil] at h
      exact h
    have hval : (encRecs rs).length + (8 + v.length % u32Mod) = (encRecs rs).length + 8 + v.length := by
      rw [Nat.mod_eq_of_lt hvlt]
      omega
    have hwrite : writeU32 (toBytes (encRecs rs).length ++ toBytes (rs.length + 1) ++
          (encRecs rs ++ (toBytes key ++ (toBytes v.length ++ (v ++ ((pad.drop 4).drop 4).drop v.length))))) 0
          ((encRecs rs).length + (8 + v.length % u32Mod))
        = .ok (toBytes ((encRecs rs).length + 8 + v.length) ++ toBytes (rs.length + 1) ++
            (encRecs rs ++ (toBytes key ++ (toBytes v.length ++ (v ++ ((pad.drop 4).drop 4).drop v.length))))) := by
      rw [hassoc, hval]
      have h := writeU32_at [] (toBytes (encRecs rs).length) (toBytes (rs.length + 1) ++
        (encRecs rs ++ (toBytes key ++ (toBytes v.length ++ (v ++ ((pad.drop 4).drop 4).drop v.length)))))
        ((encRecs rs).length + 8 + v.length) (toBytes_length _)
      simp only [List.nil_append, List.length_nil] at h
      rw [h]
      simp only [List.append_assoc]
    simp only [sizeInc, hread, hwrite]
  have htail : s.drop (16 + (encRecs rs).length + v.length) = pad.drop (8 + v.length) := by
    rw [hlay]
    have h := drop_app_plus (toBytes (encRecs rs).length ++ toBytes rs.length ++ encRecs rs) pad (8 + v.length)
    rw [hP0len] at h
    rw [show 16 + (encRecs rs).length + v.length = (encRecs rs).length + 8 + (8 + v.length) from by omega]
    exact h
  simp only [insertRaw, hfind, hsz, e1, e2, e3, e4, e5]
  rw [htail, ← drop_chain pad v.length]
  simp only [encRec, List.append_assoc]

/- ===== Failure shapes of insert and the inversion lemma. ===== -/

theorem insertRaw_conflict (s : List Nat) (rs : List (Nat × List Nat)) (key : Nat) (v : List Nat)
    (hwf : WF s rs) (hsome : ∃ r ∈ rs, key = r.1) :
    insertRaw s key v = (s, .error .conflict) := by
  have hne : findModel rs key 8 ≠ none := by
    intro hn
    rw [findModel_none_iff] at hn
    obtain ⟨r, hr, hk⟩ := hsome
    exact hn r hr hk
  obtain ⟨a, ha⟩ := Option.ne_none_iff_exists'.mp hne
  have hfind : find s key = .ok (some a) := by rw [find_spec s rs key hwf, ha]
  simp only [insertRaw, hfind]

theorem insertRaw_nospace (s : List Nat) (rs : List (Nat × List Nat)) (key : Nat) (v : List Nat)
    (hwf : WF s rs) (hnone : ∀ r ∈ rs, key ≠ r.1)
    (hsp : s.length < 16 + (encRecs rs).length + v.length) :
    ∃ tail, insertRaw s key v =
      (toBytes (encRecs rs).length ++ toBytes rs.length ++ encRecs rs ++ tail,
        .error (.store .outOfMemory)) ∧
      (toBytes (encRecs rs).length ++ toBytes rs.length ++ encRecs rs ++ tail).length = s.length := by
  obtain ⟨pad, hlay⟩ := hwf.layout
  have hslen : s.length = 8 + (encRecs rs).length + pad.length := by
    rw [hlay]
    simp only [List.length_append, toBytes_length]
  have hfind : find s key = .ok none := by
    rw [find_spec s rs key hwf, (findModel_none_iff rs key 8).mpr hnone]
  have hsz := hwf.size_read
  have hP0len : (toBytes (encRecs rs).length ++ toBytes rs.length ++ encRecs rs).length
      = (encRecs rs).length + 8 := by
    simp only [List.length_append, toBytes_length]
    omega
  by_cases c1 : s.length < (encRecs rs).length + 8 + 4
  · have e1 : writeU32 s ((encRecs rs).length + 8) key = .error (.store .outOfMemory) := by
      show writeAll s ((encRecs rs).length + 8) (toBytes key) = _
      apply writeAll_err
      · rw [toBytes_length]
        omega
      · rw [toBytes_length]
        omega
    refine ⟨pad, ?_, by rw [← hlay]⟩
    rw [← hlay]
    simp only [insertRaw, hfind, hsz, e1]
  · have hpad4 : (pad.take 4).length = 4 := by
      rw [List.length_take]
      omega
    have e1 : writeU32 s ((encRecs rs).length + 8) key
        = .ok (toBytes (encRecs rs).length ++ toBytes rs.length ++ encRecs rs ++ toBytes key ++ pad.drop 4) := by
      have hs2 : s = toBytes (encRecs rs).length ++ toBytes rs.length ++ encRecs rs ++ pad.take 4 ++ pad.drop 4 := by
        rw [hlay]
        exact split_pad _ pad 4
      rw [hs2, ← hP0len]
      exact writeU32_at _ (pad.take 4) (pad.drop 4) key hpad4
    have hlen1 : (toBytes (encRecs rs).length ++ toBytes rs.length ++ encRecs rs ++ toBytes key ++ pad.drop 4).length
        = s.length := by
      simp only [List.length_append, toBytes_length, List.length_drop]
      omega
    by_cases c2 : s.length < (encRecs rs).length + 8 + 8
    · have e2 : writeU32 (toBytes (encRecs rs).length ++ toBytes rs.length ++ encRecs rs ++ toBytes key ++ pad.drop 4)
          ((encRecs rs).length + 8 + 4) (v.length % u32Mod) = .error (.store .outOfMemory) := by
        show writeAll _ ((encRecs rs).length + 8 + 4) (toBytes (v.length % u32Mod)) = _
        apply writeAll_err
        · rw [toBytes_length, hlen1]
          omega
        · rw [toBytes_length]
          omega
      refine ⟨toBytes key ++ pad.drop 4, ?_, ?_⟩
      · simp only [insertRaw, hfind, hsz, e1, e2]
        simp only [List.append_assoc]
      · simp only [List.length_append, toBytes_length, List.length_drop]
        omega
    · have hq1t : ((pad.drop 4).take 4).length = 4 := by
        rw [List.length_take, List.length_drop]
        omega
      have hpre1len : (toBytes (encRecs rs).length ++ toBytes rs.length ++ encRecs rs ++ toBytes key).length
          = (encRecs rs).length + 8 + 4 := by
        simp only [List.length_append, toBytes_length]
        omega
      have e2 : writeU32 (toBytes (encRecs rs).length ++ toBytes rs.length ++ encRecs rs ++ toBytes key ++ pad.drop 4)
          ((encRecs rs).length + 8 + 4) (v.length % u32Mod)
          = .ok (toBytes (encRecs rs).length ++ toBytes rs.length ++ encRecs rs ++ toBytes key ++
              toBytes v.length ++ (pad.drop 4).drop 4) := by
        have hsplit := split_pad (toBytes (encRecs rs).length ++ toBytes rs.length ++ encRecs rs ++ toBytes key) (pad.drop 4) 4
        rw [hsplit, ← hpre1len]
        have h := writeU32_at (toBytes (encRecs rs).length ++ toBytes rs.length ++ encRecs rs ++ toBytes key)
          ((pad.drop 4).take 4) ((pad.drop 4).drop 4) (v.length % u32Mod) hq1t
        rw [toBytes_mod] at h
        exact h
      have hlen2 : (toBytes (encRecs rs).length ++ toBytes rs.length ++ encRecs rs ++ toBytes key ++
            toBytes v.length ++ (pad.drop 4).drop 4).length = s.length := by
        simp only [List.length_append, toBytes_length, List.length_drop]
        omega
      have hv0 : v.length ≠ 0 := by omega
      have e3 : writeAll (toBytes (encRecs rs).length ++ toBytes rs.length ++ encRecs rs ++ toBytes key ++
            toBytes v.length ++ (pad.drop 4).drop 4) ((encRecs rs).length + 8 + 8) v
          = .error (.store .outOfMemory) := by
        apply writeAll_err
        · rw [hlen2]
          omega
        · exact hv0
      refine ⟨toBytes key ++ toBytes v.length ++ (pad.drop 4).drop 4, ?_, ?_⟩
      · simp only [insertRaw, hfind, hsz, e1, e2, e3]
        simp only [List.append_assoc]
      · simp only [List.length_append, toBytes_length, List.length_drop]
        omega

theorem insertRaw_ok_inv (s s' : List Nat) (rs : List (Nat × List Nat)) (key : Nat) (v : List Nat)
    (hwf : WF s rs) (h : insertRaw s key v = (s', .ok ())) :
    (∀ r ∈ rs, key ≠ r.1) ∧ 16 + (encRecs rs).length + v.length ≤ s.length ∧
    s' = toBytes ((encRecs rs).length + 8 + v.length) ++ toBytes (rs.length + 1) ++
      encRecs rs ++ encRec (key, v) ++ s.drop (16 + (encRecs rs).length + v.length) := by
  by_cases h1 : ∀ r ∈ rs, key ≠ r.1
  · by_cases h2 : 16 + (encRecs rs).length + v.length ≤ s.length
    · refine ⟨h1, h2, ?_⟩
      rw [insertRaw_ok_of s rs key v hwf h1 h2] at h
      exact (Prod.ext_iff.mp h).1.symm
    · exfalso
      obtain ⟨tail, heq, _⟩ := insertRaw_nospace s rs key v hwf h1 (by omega)
      rw [heq] at h
      have := (Prod.ext_iff.mp h).2
      simp at this
  · exfalso
    push_neg at h1
    have := insertRaw_conflict s rs key v hwf h1
    rw [this] at h
    have := (Prod.ext_iff.mp h).2
    simp at this

theorem WF_insert (s s' : List Nat) (rs : List (Nat × List Nat)) (key : Nat) (v : List Nat)
    (hwf : WF s rs) (hkey : key < u32Mod) (h : insertRaw s key v = (s', .ok ())) :
    WF s' (rs ++ [(key, v)]) := by
  obtain ⟨hnone, hsp, hshape⟩ := insertRaw_ok_inv s s' rs key v hwf h
  have h1 : (encRecs (rs ++ [(key, v)])).length = (encRecs rs).length + 8 + v.length := by
    rw [encRecs_append]
    simp only [encRecs, List.append_nil, List.length_append, encRec_length]
    omega
  have h2 : (rs ++ [(key, v)]).length = rs.length + 1 := by simp
  have hslen : s'.length = s.length := by
    rw [hshape]
    simp only [List.length_append, toBytes_length, encRec_length, List.length_drop]
    omega
  constructor
  · refine ⟨s.drop (16 + (encRecs rs).length + v.length), ?_⟩
    rw [hshape, h1, h2, encRecs_append]
    simp only [encRecs, List.append_nil, List.append_assoc]
  · intro r hr
    rcases List.mem_append.mp hr with hin | hin
    · exact hwf.keys_lt r hin
    · rw [List.mem_singleton.mp hin]
      exact hkey
  · rw [hslen]
    exact hwf.len_lt
  · rw [List.pairwise_append]
    refine ⟨hwf.uniq, by simp, ?_⟩
    intro a ha b hb
    rw [List.mem_singleton.mp hb]
    exact Or.inl fun heq => hnone a ha heq.symm

theorem WF_insert_err (s s' : List Nat) (rs : List (Nat × List Nat)) (key : Nat) (v : List Nat)
    (e : KvErr) (hwf : WF s rs) (h : insertRaw s key v = (s', .error e)) : WF s' rs := by
  by_cases h1 : ∀ r ∈ rs, key ≠ r.1
  · by_cases h2 : 16 + (encRecs rs).length + v.length ≤ s.length
    · exfalso
      rw [insertRaw_ok_of s rs key v hwf h1 h2] at h
      have := (Prod.ext_iff.mp h).2
      simp at this
    · obtain ⟨tail, heq, hlen⟩ := insertRaw_nospace s rs key v hwf h1 (by omega)
      rw [heq] at h
      have hs' : s' = toBytes (encRecs rs).length ++ toBytes rs.length ++ encRecs rs ++ tail :=
        (Prod.ext_iff.mp h).1.symm
      constructor
      · exact ⟨tail, hs'⟩
      · exact hwf.keys_lt
      · rw [hs', hlen]
        exact hwf.len_lt
      · exact hwf.uniq
  · push_neg at h1
    have heq := insertRaw_conflict s rs key v hwf h1
    rw [heq] at h
    have hs' : s' = s := (Prod.ext_iff.mp h).1.symm
    rw [hs']
    exact hwf

/- ===== Reading a live record found by the scan. ===== -/

theorem record_access (s : List Nat) (rs l1 l2 : List (Nat × List Nat)) (key : Nat) (d : List Nat)
    (hwf : WF s rs) (hsplit : rs = l1 ++ (key, d) :: l2) (hfirst : ∀ x ∈ l1, key ≠ x.1) :
    find s key = .ok (some (8 + (encRecs l1).length)) ∧
    readU32 s (8 + (encRecs l1).length + 4) = .ok d.length ∧
    readAll s (8 + (encRecs l1).length + 8) d.length = .ok d := by
  obtain ⟨pad, hlay⟩ := hwf.layout
  have hd : d.length < u32Mod := hwf.size_lt (key, d) (by rw [hsplit]; simp)
  have hfm : findModel rs key 8 = some (8 + (encRecs l1).length) := by
    rw [hsplit, findModel_append_right l1 _ key 8 hfirst]
    simp [findModel]
  have hfind : find s key = .ok (some (8 + (encRecs l1).length)) := by
    rw [find_spec s rs key hwf, hfm]
  have hszr : readU32 s (8 + (encRecs l1).length + 4) = .ok d.length := by
    have hplen : (toBytes (encRecs rs).length ++ toBytes rs.length ++ encRecs l1 ++ toBytes key).length
        = 8 + (encRecs l1).length + 4 := by
      simp only [List.length_append, toBytes_length]
    have hlay2 : s = toBytes (encRecs rs).length ++ toBytes rs.length ++ encRecs l1 ++ toBytes key
        ++ toBytes d.length ++ (d ++ (encRecs l2 ++ pad)) := by
      rw [hlay, hsplit, encRecs_append]
      simp only [encRecs, encRec, List.append_assoc]
    rw [hlay2, ← hplen]
    exact readU32_at _ _ _ hd
  have hdata : readAll s (8 + (encRecs l1).length + 8) d.length = .ok d := by
    have hplen : (toBytes (encRecs rs).length ++ toBytes rs.length ++ encRecs l1 ++ toBytes key
        ++ toBytes d.length).length = 8 + (encRecs l1).length + 8 := by
      simp only [List.length_append, toBytes_length]
    have hlay3 : s = toBytes (encRecs rs).length ++ toBytes rs.length ++ encRecs l1 ++ toBytes key
        ++ toBytes d.length ++ d ++ (encRecs l2 ++ pad) := by
      rw [hlay, hsplit, encRecs_append]
      simp only [encRecs, encRec, List.append_assoc]
    rw [hlay3, ← hplen]
    exact readAll_at _ _ _
  exact ⟨hfind, hszr, hdata⟩

theorem getRaw_found (s : List Nat) (rs l1 l2 : List (Nat × List Nat)) (key : Nat) (d : List Nat)
    (hwf : WF s rs) (hsplit : rs = l1 ++ (key, d) :: l2) (hfirst : ∀ x ∈ l1, key ≠ x.1) :
    getRaw s key d.length = .ok (some d) := by
  obtain ⟨hfind, hszr, hdata⟩ := record_access s rs l1 l2 key d hwf hsplit hfirst
  simp only [getRaw, hfind, hszr]
  rw [if_neg (show ¬d.length ≠ d.length by simp)]
  simp only [hdata]

theorem existsRaw_spec (s : List Nat) (rs : List (Nat × List Nat)) (key : Nat) (hwf : WF s rs) :
    existsRaw s key = .ok (findModel rs key 8).isSome := by
  simp only [existsRaw, find_spec s rs key hwf]

theorem updateRaw_mismatch (s : List Nat) (rs l1 l2 : List (Nat × List Nat)) (key : Nat)
    (d v : List Nat) (hwf : WF s rs) (hsplit : rs = l1 ++ (key, d) :: l2)
    (hfirst : ∀ x ∈ l1, key ≠ x.1) (hne : d.length ≠ v.length) :
    updateRaw s key v = (s, .error .sizeMismatch) := by
  obtain ⟨hfind, hszr, _⟩ := record_access s rs l1 l2 key d hwf hsplit hfirst
  simp only [updateRaw, hfind, hszr]
  rw [if_pos hne]

/- ===== The forget wipe loop. ===== -/

theorem wipeFF_at (mid : List Nat) : ∀ (pre post : List Nat),
    wipeFF (pre ++ mid ++ post) pre.length mid.length
      = (pre ++ List.replicate mid.length 255 ++ post, .ok ()) := by
  induction mid with
  | nil => intro pre post; simp [wipeFF]
  | cons b rest ih =>
    intro pre post
    have hshape : pre ++ (b :: rest) ++ post = pre ++ [b] ++ (rest ++ post) := by
      simp only [List.cons_append, List.append_assoc, List.nil_append]
    have e1 : writeAll (pre ++ (b :: rest) ++ post) pre.length [255] = .ok (pre ++ [255] ++ (rest ++ post)) := by
      rw [hshape]
      exact writeAll_at pre [b] (rest ++ post) [255] rfl
    simp only [List.length_cons, wipeFF, e1]
    have h2 : (pre ++ [255]).length = pre.length + 1 := by simp
    have hshape2 : pre ++ [255] ++ (rest ++ post) = (pre ++ [255]) ++ rest ++ post := by
      simp only [List.append_assoc]
    rw [hshape2, ← h2, ih (pre ++ [255]) post]
    simp only [List.replicate_succ, List.append_assoc, List.cons_append, List.nil_append]

/- ===== Tombstoning: forget and its effect on the invariant. ===== -/

theorem pairwise_middle {α : Type} (R : α → α → Prop) (l1 l2 : List α) (a b : α)
    (h : List.Pairwise R (l1 ++ a :: l2))
    (h1 : ∀ x ∈ l1, R x b) (h2 : ∀ y ∈ l2, R b y) :
    List.Pairwise R (l1 ++ b :: l2) := by
  rw [List.pairwise_append] at h ⊢
  obtain ⟨hl1, hcons, hcross⟩ := h
  rw [List.pairwise_cons] at hcons ⊢
  refine ⟨hl1, ⟨h2, hcons.2⟩, ?_⟩
  intro x hx y hy
  rcases List.mem_cons.mp hy with rfl | hy2
  · exact h1 x hx
  · exact hcross x hx y (List.mem_cons_of_mem _ hy2)

theorem KeyOk_tomb_right (a b : Nat × List Nat) (hb : b.1 = tombKey) : KeyOk a b := by
  by_cases h : a.1 = tombKey
  · exact Or.inr ⟨h, hb⟩
  · exact Or.inl (by rw [hb]; exact h)

theorem KeyOk_tomb_left (a b : Nat × List Nat) (ha : a.1 = tombKey) : KeyOk a b := by
  by_cases h : b.1 = tombKey
  · exact Or.inr ⟨ha, h⟩
  · exact Or.inl (by rw [ha]; intro heq; exact h heq.symm)

theorem forgetRaw_notFound (s : List Nat) (rs : List (Nat × List Nat)) (key : Nat)
    (hwf : WF s rs) (hnone : ∀ x ∈ rs, key ≠ x.1) :
    forgetRaw s key = (s, .error .notFound) := by
  have hfind : find s key = .ok none := by
    rw [find_spec s rs key hwf, (findModel_none_iff rs key 8).mpr hnone]
  simp only [forgetRaw, hfind]

theorem existsRaw_false (s : List Nat) (rs : List (Nat × List Nat)) (key : Nat)
    (hwf : WF s rs) (hnone : ∀ x ∈ rs, key ≠ x.1) :
    existsRaw s key = .ok false := by
  rw [existsRaw_spec s rs key hwf, (findModel_none_iff rs key 8).mpr hnone]
  rfl

theorem forgetRaw_found (s pad : List Nat) (rs l1 l2 : List (Nat × List Nat)) (key : Nat)
    (d : List Nat) (hwf : WF s rs)
    (hlay : s = toBytes (encRecs rs).length ++ toBytes rs.length ++ encRecs rs ++ pad)
    (hsplit : rs = l1 ++ (key, d) :: l2) (hfirst : ∀ x ∈ l1, key ≠ x.1) :
    forgetRaw s key
      = (toBytes (encRecs rs).length ++ toBytes rs.length ++
          (encRecs l1 ++ (encRec (tombKey, List.replicate d.length 255) ++ (encRecs l2 ++ pad))),
        .ok ()) := by
  obtain ⟨hfind, hszr, _⟩ := record_access s rs l1 l2 key d hwf hsplit hfirst
  have hplenK : (toBytes (encRecs rs).length ++ toBytes rs.length ++ encRecs l1).length
      = 8 + (encRecs l1).length := by
    simp only [List.length_append, toBytes_length]
  have e1 : writeU32 s (8 + (encRecs l1).length) tombKey
      = .ok (toBytes (encRecs rs).length ++ toBytes rs.length ++ encRecs l1 ++ toBytes tombKey
          ++ (toBytes d.length ++ (d ++ (encRecs l2 ++ pad)))) := by
    have hlayK : s = toBytes (encRecs rs).length ++ toBytes rs.length ++ encRecs l1 ++ toBytes key
        ++ (toBytes d.length ++ (d ++ (encRecs l2 ++ pad))) := by
      rw [hlay, hsplit, encRecs_append]
      simp only [encRecs, encRec, List.append_assoc]
    rw [hlayK, ← hplenK]
    exact writeU32_at _ (toBytes key) _ tombKey (toBytes_length _)
  have hplen2 : (toBytes (encRecs rs).length ++ toBytes rs.length ++ encRecs l1 ++ toBytes tombKey
      ++ toBytes d.length).length = 8 + (encRecs l1).length + 8 := by
    simp only [List.length_append, toBytes_length]
  have e2 : wipeFF (toBytes (encRecs rs).length ++ toBytes rs.length ++ encRecs l1 ++ toBytes tombKey
        ++ (toBytes d.length ++ (d ++ (encRecs l2 ++ pad)))) (8 + (encRecs l1).length + 8) d.length
      = (toBytes (encRecs rs).length ++ toBytes rs.length ++ encRecs l1 ++ toBytes tombKey
          ++ toBytes d.length ++ List.replicate d.length 255 ++ (encRecs l2 ++ pad), .ok ()) := by
    have hshape : toBytes (encRecs rs).length ++ toBytes rs.length ++ encRecs l1 ++ toBytes tombKey
          ++ (toBytes d.length ++ (d ++ (encRecs l2 ++ pad)))
        = toBytes (encRecs rs).length ++ toBytes rs.length ++ encRecs l1 ++ toBytes tombKey
          ++ toBytes d.length ++ d ++ (encRecs l2 ++ pad) := by
      simp only [List.append_assoc]
    rw [hshape, ← hplen2]
    exact wipeFF_at d (toBytes (encRecs rs).length ++ toBytes rs.length ++ encRecs l1
      ++ toBytes tombKey ++ toBytes d.length) (encRecs l2 ++ pad)
  simp only [forgetRaw, hfind, hszr, e1, e2]
  simp only [encRec, List.length_replicate, List.append_assoc]

theorem WF_forget (s s' : List Nat) (rs l1 l2 : List (Nat × List Nat)) (key : Nat) (d : List Nat)
    (hwf : WF s rs) (hsplit : rs = l1 ++ (key, d) :: l2) (hfirst : ∀ x ∈ l1, key ≠ x.1)
    (h : forgetRaw s key = (s', .ok ())) :
    WF s' (l1 ++ (tombKey, List.replicate d.length 255) :: l2) := by
  obtain ⟨pad, hlay⟩ := hwf.layout
  have heq := forgetRaw_found s pad rs l1 l2 key d hwf hlay hsplit hfirst
  rw [heq] at h
  have hs' : s' = toBytes (encRecs rs).length ++ toBytes rs.length ++
      (encRecs l1 ++ (encRec (tombKey, List.replicate d.length 255) ++ (encRecs l2 ++ pad))) :=
    (Prod.ext_iff.mp h).1.symm
  have hL : (encRecs (l1 ++ (tombKey, List.replicate d.length 255) :: l2)).length
      = (encRecs rs).length := by
    rw [hsplit, encRecs_append, encRecs_append]
    simp only [encRecs, List.length_append, encRec_length, List.length_replicate]
  have hN : (l1 ++ (tombKey, List.replicate d.length 255) :: l2).length = rs.length := by
    rw [hsplit]
    simp
  constructor
  · refine ⟨pad, ?_⟩
    rw [hs', hL, hN, encRecs_append]
    simp only [encRecs, List.append_assoc]
  · intro r hr
    rcases List.mem_append.mp hr with hin | hin
    · exact hwf.keys_lt r (by rw [hsplit]; exact List.mem_append_left _ hin)
    · rcases List.mem_cons.mp hin with rfl | hin2
      · show tombKey < u32Mod
        decide
      · exact hwf.keys_lt r (by rw [hsplit]; exact List.mem_append_right _ (List.mem_cons_of_mem _ hin2))
  · have hslen : s'.length = s.length := by
      rw [hs', hlay, hsplit, encRecs_append]
      simp only [encRecs, List.length_append, encRec_length, List.length_replicate, toBytes_length]
      omega
    rw [hslen]
    exact hwf.len_lt
  · have huniq := hwf.uniq
    rw [hsplit] at huniq
    exact pairwise_middle KeyOk l1 l2 (key, d) (tombKey, List.replicate d.length 255) huniq
      (fun x _ => KeyOk_tomb_right x _ rfl) (fun y _ => KeyOk_tomb_left _ y rfl)

theorem tomb_not_found (rs l1 l2 : List (Nat × List Nat)) (key : Nat) (d : List Nat)
    (huniq : List.Pairwise KeyOk (l1 ++ (key, d) :: l2))
    (hfirst : ∀ x ∈ l1, key ≠ x.1) (hkt : key ≠ tombKey) :
    ∀ x ∈ l1 ++ (tombKey, List.replicate d.length 255) :: l2, key ≠ x.1 := by
  intro x hx
  rcases List.mem_append.mp hx with hx1 | hx2
  · exact hfirst x hx1
  · rcases List.mem_cons.mp hx2 with rfl | hx3
    · exact hkt
    · rw [List.pairwise_append] at huniq
      have h2 := huniq.2.1
      rw [List.pairwise_cons] at h2
      rcases h2.1 x hx3 with h | h
      · exact h
      · exact absurd h.1 hkt

theorem forgetRaw_ok_inv (s s' : List Nat) (rs : List (Nat × List Nat)) (key : Nat)
    (hwf : WF s rs) (h : forgetRaw s key = (s', .ok ())) :
    ∃ l1 d l2, rs = l1 ++ (key, d) :: l2 ∧ (∀ x ∈ l1, key ≠ x.1) := by
  cases hfm : findModel rs key 8 with
  | none =>
    exfalso
    have hnone := (findModel_none_iff rs key 8).mp hfm
    have heq := forgetRaw_notFound s rs key hwf hnone
    rw [heq] at h
    have := (Prod.ext_iff.mp h).2
    simp at this
  | some a =>
    obtain ⟨l1, r, l2, hrs, hkey, hfirst, _⟩ := findModel_some_split rs key a 8 hfm
    obtain ⟨rk, rd⟩ := r
    have hk2 : key = rk := hkey
    subst hk2
    exact ⟨l1, rd, l2, hrs, hfirst⟩

/- ===== Reset. ===== -/

theorem resetRaw_ok (s : List Nat) (rs : List (Nat × List Nat)) (hwf : WF s rs) :
    resetRaw s = (toBytes 0 ++ toBytes 0 ++ s.drop 8, .ok ()) := by
  obtain ⟨pad, hlay⟩ := hwf.layout
  have e1 : writeU32 s 0 0 = .ok (toBytes 0 ++ (toBytes rs.length ++ (encRecs rs ++ pad))) := by
    have h := writeU32_at [] (toBytes (encRecs rs).length) (toBytes rs.length ++ (encRecs rs ++ pad))
      0 (toBytes_length _)
    simp only [List.nil_append, List.length_nil] at h
    have hshape : s = toBytes (encRecs rs).length ++ (toBytes rs.length ++ (encRecs rs ++ pad)) := by
      rw [hlay]
      simp only [List.append_assoc]
    rw [hshape]
    exact h
  have e2 : writeU32 (toBytes 0 ++ (toBytes rs.length ++ (encRecs rs ++ pad))) 4 0
      = .ok (toBytes 0 ++ toBytes 0 ++ (encRecs rs ++ pad)) := by
    have hsh : toBytes 0 ++ (toBytes rs.length ++ (encRecs rs ++ pad))
        = toBytes 0 ++ toBytes rs.length ++ (encRecs rs ++ pad) := by
      simp only [List.append_assoc]
    rw [hsh]
    have h := writeU32_at (toBytes 0) (toBytes rs.length) (encRecs rs ++ pad) 0 (toBytes_length _)
    rw [toBytes_length] at h
    exact h
  have hdrop : s.drop 8 = encRecs rs ++ pad := by
    rw [hlay]
    have hsh : toBytes (encRecs rs).length ++ toBytes rs.length ++ encRecs rs ++ pad
        = (toBytes (encRecs rs).length ++ toBytes rs.length) ++ (encRecs rs ++ pad) := by
      simp only [List.append_assoc]
    rw [hsh]
    have h := drop_app (toBytes (encRecs rs).length ++ toBytes rs.length) (encRecs rs ++ pad)
    have hlen8 : (toBytes (encRecs rs).length ++ toBytes rs.length).length = 8 := by
      simp only [List.length_append, toBytes_length]
    rw [hlen8] at h
    exact h
  simp only [resetRaw, e1, e2, hdrop]

theorem WF_reset (s : List Nat) (rs : List (Nat × List Nat)) (hwf : WF s rs) :
    WF (toBytes 0 ++ toBytes 0 ++ s.drop 8) [] := by
  constructor
  · exact ⟨s.drop 8, by simp [encRecs]⟩
  · simp
  · have h1 := hwf.len_lt
    have h2 := hwf.len_decomp.2
    simp only [List.length_append, toBytes_length, List.length_drop]
    omega
  · exact List.Pairwise.nil

/- ===== Update. ===== -/

theorem updateRaw_notFound (s : List Nat) (rs : List (Nat × List Nat)) (key : Nat) (v : List Nat)
    (hwf : WF s rs) (hnone : ∀ x ∈ rs, key ≠ x.1) :
    updateRaw s key v = (s, .error .notFound) := by
  have hfind : find s key = .ok none := by
    rw [find_spec s rs key hwf, (findModel_none_iff rs key 8).mpr hnone]
  simp only [updateRaw, hfind]

theorem updateRaw_found (s pad : List Nat) (rs l1 l2 : List (Nat × List Nat)) (key : Nat)
    (d v : List Nat) (hwf : WF s rs)
    (hlay : s = toBytes (encRecs rs).length ++ toBytes rs.length ++ encRecs rs ++ pad)
    (hsplit : rs = l1 ++ (key, d) :: l2) (hfirst : ∀ x ∈ l1, key ≠ x.1)
    (hlen : d.length = v.length) :
    updateRaw s key v
      = (toBytes (encRecs rs).length ++ toBytes rs.length ++
          (encRecs l1 ++ (toBytes key ++ (toBytes d.length ++ (v ++ (encRecs l2 ++ pad))))),
        .ok ()) := by
  obtain ⟨hfind, hszr, _⟩ := record_access s rs l1 l2 key d hwf hsplit hfirst
  have hplen : (toBytes (encRecs rs).length ++ toBytes rs.length ++ encRecs l1 ++ toBytes key
      ++ toBytes d.length).length = 8 + (encRecs l1).length + 8 := by
    simp only [List.length_append, toBytes_length]
  have hw : writeAll s (8 + (encRecs l1).length + 8) v
      = .ok (toBytes (encRecs rs).length ++ toBytes rs.length ++ encRecs l1 ++ toBytes key
          ++ toBytes d.length ++ v ++ (encRecs l2 ++ pad)) := by
    have hlay3 : s = toBytes (encRecs rs).length ++ toBytes rs.length ++ encRecs l1 ++ toBytes key
        ++ toBytes d.length ++ d ++ (encRecs l2 ++ pad) := by
      rw [hlay, hsplit, encRecs_append]
      simp only [encRecs, encRec, List.append_assoc]
    rw [hlay3, ← hplen]
    exact writeAll_at _ d _ v hlen
  simp only [updateRaw, hfind, hszr]
  rw [if_neg (show ¬d.length ≠ v.length by simp [hlen])]
  simp only [hw]
  simp only [List.append_assoc]

theorem WF_update (s s' : List Nat) (rs l1 l2 : List (Nat × List Nat)) (key : Nat)
    (d v : List Nat) (hwf : WF s rs) (hsplit : rs = l1 ++ (key, d) :: l2)
    (hfirst : ∀ x ∈ l1, key ≠ x.1) (hlen : d.length = v.length)
    (h : updateRaw s key v = (s', .ok ())) :
    WF s' (l1 ++ (key, v) :: l2) := by
  obtain ⟨pad, hlay⟩ := hwf.layout
  have heq := updateRaw_found s pad rs l1 l2 key d v hwf hlay hsplit hfirst hlen
  rw [heq] at h
  have hs' : s' = toBytes (encRecs rs).length ++ toBytes rs.length ++
      (encRecs l1 ++ (toBytes key ++ (toBytes d.length ++ (v ++ (encRecs l2 ++ pad))))) :=
    (Prod.ext_iff.mp h).1.symm
  have hL : (encRecs (l1 ++ (key, v) :: l2)).length = (encRecs rs).length := by
    rw [hsplit, encRecs_append, encRecs_append]
    simp only [encRecs, List.length_append, encRec_length]
    omega
  have hN : (l1 ++ (key, v) :: l2).length = rs.length := by
    rw [hsplit]
    simp
  constructor
  · refine ⟨pad, ?_⟩
    rw [hs', hL, hN, encRecs_append]
    simp only [encRecs, encRec, List.append_assoc, hlen]
  · intro r hr
    rcases List.mem_append.mp hr with hin | hin
    · exact hwf.keys_lt r (by rw [hsplit]; exact List.mem_append_left _ hin)
    · rcases List.mem_cons.mp hin with rfl | hin2
      · exact hwf.keys_lt (key, d) (by rw [hsplit]; exact List.mem_append_right _ (List.mem_cons_self _ _))
      · exact hwf.keys_lt r (by rw [hsplit]; exact List.mem_append_right _ (List.mem_cons_of_mem _ hin2))
  · have hslen : s'.length = s.length := by
      rw [hs', hlay, hsplit, encRecs_append]
      simp only [encRecs, List.length_append, encRec_length, toBytes_length]
      omega
    rw [hslen]
    exact hwf.len_lt
  · have huniq := hwf.uniq
    rw [hsplit] at huniq
    exact pairwise_middle KeyOk l1 l2 (key, d) (key, v) huniq
      (fun x hx => by
        rw [List.pairwise_append] at huniq
        exact huniq.2.2 x hx (key, d) (List.mem_cons_self _ _))
      (fun y hy => by
        rw [List.pairwise_append] at huniq
        have h2 := huniq.2.1
        rw [List.pairwise_cons] at h2
        exact h2.1 y hy)

/- ===== Kv-level plumbing and reachable states. ===== -/

theorem Kv_pair_inv {η : Type} (hasher : η) (R : List Nat × Except KvErr Unit) (kv' : Kv η)
    (r : Except KvErr Unit) (h : ((⟨hasher, R.1⟩ : Kv η), R.2) = (kv', r)) :
    kv'.hasher = hasher ∧ R = (kv'.store, r) := by
  have h1 : kv' = ⟨hasher, R.1⟩ := (congrArg Prod.fst h).symm
  have h2 : R.2 = r := congrArg Prod.snd h
  subst h1
  refine ⟨rfl, ?_⟩
  rw [← h2]

/-- States reachable from a freshly zero-initialized store of adequate
    u32-addressable capacity through the public mutating operations,
    together with the number of record headers appended since the most
    recent reset (or since construction). -/
inductive Reach (ops : HasherOps η) : Kv η → Nat → Prop where
  | init (h : η) (cap : Nat) (h8 : 8 ≤ cap) (hlt : cap < u32Mod) :
      Reach ops ⟨h, List.replicate cap 0⟩ 0
  | insert_ok (kv kv' : Kv η) (n : Nat) (k v : List Nat)
      (hr : Reach ops kv n) (h : Kv.insert ops kv k v = (kv', .ok ())) : Reach ops kv' (n + 1)
  | insert_err (kv kv' : Kv η) (n : Nat) (k v : List Nat) (e : KvErr)
      (hr : Reach ops kv n) (h : Kv.insert ops kv k v = (kv', .error e)) : Reach ops kv' n
  | update_step (kv kv' : Kv η) (n : Nat) (k v : List Nat) (r : Except KvErr Unit)
      (hr : Reach ops kv n) (h : Kv.update ops kv k v = (kv', r)) : Reach ops kv' n
  | forget_step (kv kv' : Kv η) (n : Nat) (k : List Nat) (r : Except KvErr Unit)
      (hr : Reach ops kv n) (h : Kv.forget ops kv k = (kv', r)) : Reach ops kv' n
  | reset_step (kv kv' : Kv η) (n : Nat) (r : Except KvErr Unit)
      (hr : Reach ops kv n) (h : Kv.reset kv = (kv', r)) : Reach ops kv' 0

theorem Reach_WF (ops : HasherOps η) (kv : Kv η) (n : Nat) (h : Reach ops kv n) :
    ∃ rs, WF kv.store rs ∧ rs.length = n := by
  induction h with
  | init h cap h8 hlt =>
    refine ⟨[], ?_, rfl⟩
    constructor
    · refine ⟨List.replicate (cap - 8) 0, ?_⟩
      have hrepl : (List.replicate cap 0 : List Nat)
          = List.replicate 8 0 ++ List.replicate (cap - 8) 0 := by
        rw [← List.replicate_add]
        congr 1
        omega
      rw [hrepl]
      rfl
    · simp
    · simp only [List.length_replicate]
      exact hlt
    · exact List.Pairwise.nil
  | insert_ok kv kv' n k v hr h ih =>
    obtain ⟨rs, hwf, hn⟩ := ih
    have hinv := Kv_pair_inv kv.hasher (insertRaw kv.store (hashKey ops kv.hasher k) v) kv' (.ok ()) h
    have hw := WF_insert kv.store kv'.store rs (hashKey ops kv.hasher k) v hwf
      (hashKey_lt ops kv.hasher k) hinv.2
    exact ⟨rs ++ [(hashKey ops kv.hasher k, v)], hw, by simp [hn]⟩
  | insert_err kv kv' n k v e hr h ih =>
    obtain ⟨rs, hwf, hn⟩ := ih
    have hinv := Kv_pair_inv kv.hasher (insertRaw kv.store (hashKey ops kv.hasher k) v) kv' (.error e) h
    exact ⟨rs, WF_insert_err kv.store kv'.store rs (hashKey ops kv.hasher k) v e hwf hinv.2, hn⟩
  | update_step kv kv' n k v r hr h ih =>
    obtain ⟨rs, hwf, hn⟩ := ih
    have hinv := Kv_pair_inv kv.hasher (updateRaw kv.store (hashKey ops kv.hasher k) v) kv' r h
    cases hfm : findModel rs (hashKey ops kv.hasher k) 8 with
    | none =>
      have heq := updateRaw_notFound kv.store rs (hashKey ops kv.hasher k) v hwf
        ((findModel_none_iff rs _ 8).mp hfm)
      rw [hinv.2] at heq
      simp only [Prod.mk.injEq] at heq
      rw [heq.1]
      exact ⟨rs, hwf, hn⟩
    | some a =>
      obtain ⟨l1, rrec, l2, hrs, hkey, hfirst, _⟩ := findModel_some_split rs _ a 8 hfm
      obtain ⟨rk, rd⟩ := rrec
      have hk2 : hashKey ops kv.hasher k = rk := hkey
      subst hk2
      by_cases hlen : rd.length = v.length
      · have heq := updateRaw_found kv.store (hwf.layout.choose) rs l1 l2 _ rd v hwf
          (hwf.layout.choose_spec) hrs hfirst hlen
        rw [hinv.2] at heq
        simp only [Prod.mk.injEq] at heq
        have hw := WF_update kv.store kv'.store rs l1 l2 _ rd v hwf hrs hfirst hlen
          (by rw [hinv.2, heq.2])
        refine ⟨l1 ++ (hashKey ops kv.hasher k, v) :: l2, hw, ?_⟩
        rw [← hn, hrs]
        simp
      · have heq := updateRaw_mismatch kv.store rs l1 l2 _ rd v hwf hrs hfirst hlen
        rw [hinv.2] at heq
        simp only [Prod.mk.injEq] at heq
        rw [heq.1]
        exact ⟨rs, hwf, hn⟩
  | forget_step kv kv' n k r hr h ih =>
    obtain ⟨rs, hwf, hn⟩ := ih
    have hinv := Kv_pair_inv kv.hasher (forgetRaw kv.store (hashKey ops kv.hasher k)) kv' r h
    cases hfm : findModel rs (hashKey ops kv.hasher k) 8 with
    | none =>
      have heq := forgetRaw_notFound kv.store rs (hashKey ops kv.hasher k) hwf
        ((findModel_none_iff rs _ 8).mp hfm)
      rw [hinv.2] at heq
      simp only [Prod.mk.injEq] at heq
      rw [heq.1]
      exact ⟨rs, hwf, hn⟩
    | some a =>
      obtain ⟨l1, rrec, l2, hrs, hkey, hfirst, _⟩ := findModel_some_split rs _ a 8 hfm
      obtain ⟨rk, rd⟩ := rrec
      have hk2 : hashKey ops kv.hasher k = rk := hkey
      subst hk2
      have heq := forgetRaw_found kv.store (hwf.layout.choose) rs l1 l2 _ rd hwf
        (hwf.layout.choose_spec) hrs hfirst
      rw [hinv.2] at heq
      simp only [Prod.mk.injEq] at heq
      have hw := WF_forget kv.store kv'.store rs l1 l2 _ rd hwf hrs hfirst
        (by rw [hinv.2, heq.2])
      refine ⟨l1 ++ (tombKey, List.replicate rd.length 255) :: l2, hw, ?_⟩
      rw [← hn, hrs]
      simp
  | reset_step kv kv' n r hr h ih =>
    obtain ⟨rs, hwf, hn⟩ := ih
    have hinv := Kv_pair_inv kv.hasher (resetRaw kv.store) kv' r h
    have heq := resetRaw_ok kv.store rs hwf
    rw [hinv.2] at heq
    simp only [Prod.mk.injEq] at heq
    rw [heq.1]
    exact ⟨[], WF_reset kv.store rs hwf, rfl⟩

/- ===== Claim C3: growable backend growth policy. ===== -/

/-- Claim C3 counterexample: with the backend seeded at 4 bytes, a 13-byte
    write at address 0 does not stop after a single growth: within the
    single-retry budget (fuel 2: one attempt plus one regrow-retry) the
    write still fails, while the actual recursion doubles twice (4 to 8 to
    16) and then succeeds, transferring all 13 bytes. -/
theorem C3_counterexample :
    heapWriteFuel 4 (List.replicate 4 0) 0 (List.replicate 13 7)
      = some (List.replicate 13 7 ++ List.replicate 3 0, 13) ∧
    heapWriteFuel 2 (List.replicate 4 0) 0 (List.replicate 13 7) = none := by
  exact ⟨rfl, rfl⟩

/-- Claim C3 amended: on an out-of-space failure the heap backend appends
    store.length zero bytes (doubling) and calls itself again, repeating
    until the write fits; for a store of positive length whose n-fold
    doubling covers the request, the write succeeds within fuel n + 1 and
    transfers the full request — the error is never propagated, and growth
    is not limited to a single retry. -/
theorem C3_heap_growth (n : Nat) : ∀ (store data : List Nat) (addr : Nat),
    0 < store.length → addr + data.length ≤ store.length * 2 ^ n →
    ∃ s', heapWriteFuel (n + 1) store addr data = some (s', data.length) := by
  induction n with
  | zero =>
    intro store data addr h0 hle
    simp only [pow_zero, Nat.mul_one] at hle
    refine ⟨store.take addr ++ data ++ store.drop (addr + data.length), ?_⟩
    simp [heapWriteFuel, sliceWriteB, Nat.not_lt.mpr hle]
  | succ n ih =>
    intro store data addr h0 hle
    by_cases hfit : addr + data.length > store.length
    · have h0' : 0 < (store ++ List.replicate store.length 0).length := by
        simp only [List.length_append, List.length_replicate]
        omega
      have hle' : addr + data.length ≤ (store ++ List.replicate store.length 0).length * 2 ^ n := by
        have hlen2 : (store ++ List.replicate store.length 0).length
            = store.length + store.length := by
          simp
        rw [hlen2]
        calc addr + data.length ≤ store.length * 2 ^ (n + 1) := hle
          _ = (store.length + store.length) * 2 ^ n := by ring
      obtain ⟨s', hs'⟩ := ih (store ++ List.replicate store.length 0) data addr h0' hle'
      refine ⟨s', ?_⟩
      simp only [heapWriteFuel, sliceWriteB, if_pos hfit]
      exact hs'
    · refine ⟨store.take addr ++ data ++ store.drop (addr + data.length), ?_⟩
      simp [heapWriteFuel, sliceWriteB, hfit]

/-- Claim C3 witness: a write that already fits succeeds with no growth. -/
theorem C3_witness :
    ∃ s', heapWriteFuel 1 (List.replicate 4 0) 0 (List.replicate 2 9) = some (s', 2) := by
  have h := C3_heap_growth 0 (List.replicate 4 0) (List.replicate 2 9) 0 (by decide) (by decide)
  simpa using h

/- ===== Claim C4: fixed and borrowed backend boundary. ===== -/

/-- Claim C4 counterexample: the InMemoryKvDataStore backend rejects a
    write whose range ends exactly at the region length (its bound is
    end >= len), while the borrowed-slice backend accepts the identical
    exact-fit write; so the claimed boundary does not hold for every
    fixed-capacity backend. -/
theorem C4_counterexample :
    inMemWrite (List.replicate 4 0) 0 (List.replicate 4 1) = .error .outOfMemory ∧
    sliceWriteB (List.replicate 4 0) 0 (List.replicate 4 1) = .ok (List.replicate 4 1, 4) := by
  exact ⟨rfl, rfl⟩

/-- Claim C4 amended: for the borrowed-slice backend and StaticDataStore
    (which delegates to it), a write or read whose range ends exactly at
    the region length succeeds and transfers the full request, and one
    whose range ends one byte past the region length fails with
    OutOfMemory; the InMemoryKvDataStore backend instead fails every
    access whose range ends at or past the region length, so its exact-fit
    write and read fail. -/
theorem C4_boundary (s data : List Nat) (addr : Nat) (h : addr + data.length = s.length) :
    sliceWriteB s addr data = .ok (s.take addr ++ data, data.length) ∧
    staticWrite s addr data = .ok (s.take addr ++ data, data.length) ∧
    sliceReadB s addr data.length = .ok (s.drop addr, data.length) ∧
    staticRead s addr data.length = .ok (s.drop addr, data.length) ∧
    sliceWriteB s (addr + 1) data = .error .outOfMemory ∧
    sliceReadB s (addr + 1) data.length = .error .outOfMemory ∧
    staticWrite s (addr + 1) data = .error .outOfMemory ∧
    staticRead s (addr + 1) data.length = .error .outOfMemory ∧
    inMemWrite s addr data = .error .outOfMemory ∧
    inMemRead s addr data.length = .error .outOfMemory := by
  have h1 : ¬s.length < addr + data.length := by omega
  have h2 : s.length < addr + 1 + data.length := by omega
  have h3 : addr + data.length ≥ s.length := by omega
  have hw : s.take addr ++ data ++ s.drop (addr + data.length) = s.take addr ++ data := by
    rw [h, List.drop_length, List.append_nil]
  have hr : (s.drop addr).take data.length = s.drop addr := by
    apply List.take_of_length_le
    rw [List.length_drop]
    omega
  refine ⟨?_, ?_, ?_, ?_, ?_, ?_, ?_, ?_, ?_, ?_⟩
  · simp [sliceWriteB, h1, hw]
  · simp [staticWrite, sliceWriteB, h1, hw]
  · simp [sliceReadB, h1, hr]
  · simp [staticRead, sliceReadB, h1, hr]
  · simp [sliceWriteB, h2]
  · simp [sliceReadB, h2]
  · simp [staticWrite, sliceWriteB, h2]
  · simp [staticRead, sliceReadB, h2]
  · simp [inMemWrite, h3]
  · simp [inMemRead, h3]

/-- Claim C4 witness: the boundary behavior at a concrete 4-byte region
    and a 4-byte transfer starting at address 0. -/
theorem C4_witness :
    sliceWriteB (List.replicate 4 0) 0 (List.replicate 4 1)
      = .ok ((List.replicate 4 0).take 0 ++ List.replicate 4 1, (List.replicate 4 1).length) ∧
    staticWrite (List.replicate 4 0) 0 (List.replicate 4 1)
      = .ok ((List.replicate 4 0).take 0 ++ List.replicate 4 1, (List.replicate 4 1).length) ∧
    sliceReadB (List.replicate 4 0) 0 (List.replicate 4 1).length
      = .ok ((List.replicate 4 0).drop 0, (List.replicate 4 1).length) ∧
    staticRead (List.replicate 4 0) 0 (List.replicate 4 1).length
      = .ok ((List.replicate 4 0).drop 0, (List.replicate 4 1).length) ∧
    sliceWriteB (List.replicate 4 0) (0 + 1) (List.replicate 4 1) = .error .outOfMemory ∧
    sliceReadB (List.replicate 4 0) (0 + 1) (List.replicate 4 1).length = .error .outOfMemory ∧
    staticWrite (List.replicate 4 0) (0 + 1) (List.replicate 4 1) = .error .outOfMemory ∧
    staticRead (List.replicate 4 0) (0 + 1) (List.replicate 4 1).length = .error .outOfMemory ∧
    inMemWrite (List.replicate 4 0) 0 (List.replicate 4 1) = .error .outOfMemory ∧
    inMemRead (List.replicate 4 0) 0 (List.replicate 4 1).length = .error .outOfMemory :=
  C4_boundary (List.replicate 4 0) (List.replicate 4 1) 0 (by decide)

/- ===== Engine-level claims. ===== -/

/-- A degenerate hasher model for concrete witnesses: unit state, finish 0. -/
def unitOps : HasherOps Unit := ⟨fun _ _ => (), fun _ => 0⟩

/-- The zero-initialized 32-byte store is well formed and holds no records. -/
theorem WF_empty32 : WF (List.replicate 32 0) [] :=
  ⟨⟨List.replicate 24 0, by rfl⟩, by simp, by decide, List.Pairwise.nil⟩

/-- Claim C1: round trip — when insert of a value succeeds on a well
    formed store, an immediately following get for the same key at the
    byte size of that value returns Some of exactly the inserted bytes. -/
theorem C1_round_trip {η : Type} (ops : HasherOps η) (kv kv' : Kv η) (k v : List Nat)
    (rs : List (Nat × List Nat)) (hwf : WF kv.store rs)
    (h : Kv.insert ops kv k v = (kv', .ok ())) :
    Kv.get ops kv' k v.length = .ok (some v) := by
  obtain ⟨hv', sv'⟩ := kv'
  have hinv := Kv_pair_inv kv.hasher (insertRaw kv.store (hashKey ops kv.hasher k) v) ⟨hv', sv'⟩ (.ok ()) h
  have hh' : hv' = kv.hasher := hinv.1
  subst hh'
  obtain ⟨hnone, _, _⟩ := insertRaw_ok_inv kv.store sv' rs (hashKey ops kv.hasher k) v hwf hinv.2
  have hw := WF_insert kv.store sv' rs (hashKey ops kv.hasher k) v hwf (hashKey_lt ops kv.hasher k) hinv.2
  show getRaw sv' (hashKey ops kv.hasher k) v.length = .ok (some v)
  exact getRaw_found sv' (rs ++ [(hashKey ops kv.hasher k, v)]) rs [] (hashKey ops kv.hasher k) v hw rfl hnone

/-- Claim C1 witness at a concrete one-byte value in a 32-byte store. -/
theorem C1_witness :
    Kv.get unitOps (Kv.insert unitOps ⟨(), List.replicate 32 0⟩ [] [7]).1 [] 1 = .ok (some [7]) := by
  have h := C1_round_trip unitOps ⟨(), List.replicate 32 0⟩
    (Kv.insert unitOps ⟨(), List.replicate 32 0⟩ [] [7]).1 [] [7] [] WF_empty32 rfl
  simpa using h

/-- Claim C2: conflict exclusivity with atomicity — after a successful
    insert under key k, a second insert under k with any value fails with
    Conflict and returns the store handle completely unchanged. -/
theorem C2_conflict {η : Type} (ops : HasherOps η) (kv kv' : Kv η) (k v1 v2 : List Nat)
    (rs : List (Nat × List Nat)) (hwf : WF kv.store rs)
    (h : Kv.insert ops kv k v1 = (kv', .ok ())) :
    Kv.insert ops kv' k v2 = (kv', .error .conflict) := by
  obtain ⟨hv', sv'⟩ := kv'
  have hinv := Kv_pair_inv kv.hasher (insertRaw kv.store (hashKey ops kv.hasher k) v1) ⟨hv', sv'⟩ (.ok ()) h
  have hh' : hv' = kv.hasher := hinv.1
  subst hh'
  have hw := WF_insert kv.store sv' rs (hashKey ops kv.hasher k) v1 hwf (hashKey_lt ops kv.hasher k) hinv.2
  have hc := insertRaw_conflict sv' (rs ++ [(hashKey ops kv.hasher k, v1)]) (hashKey ops kv.hasher k) v2 hw
    ⟨(hashKey ops kv.hasher k, v1), by simp, rfl⟩
  show ((⟨kv.hasher, (insertRaw sv' (hashKey ops kv.hasher k) v2).1⟩ : Kv η),
      (insertRaw sv' (hashKey ops kv.hasher k) v2).2) = (⟨kv.hasher, sv'⟩, .error .conflict)
  rw [hc]

/-- Claim C2 witness: a concrete double insert under the same key. -/
theorem C2_witness :
    Kv.insert unitOps (Kv.insert unitOps ⟨(), List.replicate 32 0⟩ [] [7]).1 [] [1, 2]
      = ((Kv.insert unitOps ⟨(), List.replicate 32 0⟩ [] [7]).1, .error .conflict) := by
  have h := C2_conflict unitOps ⟨(), List.replicate 32 0⟩
    (Kv.insert unitOps ⟨(), List.replicate 32 0⟩ [] [7]).1 [] [7] [1, 2] [] WF_empty32 rfl
  exact h

/-- Claim C6: size-changing update rejected atomically — after inserting
    v1, an update with a value of different byte size fails with
    SizeMismatch, returns the handle unchanged, and a subsequent get at
    the size of v1 still returns the original v1 bytes. -/
theorem C6_size_mismatch_update {η : Type} (ops : HasherOps η) (kv kv' : Kv η)
    (k v1 v2 : List Nat) (rs : List (Nat × List Nat)) (hwf : WF kv.store rs)
    (hne : v1.length ≠ v2.length) (h : Kv.insert ops kv k v1 = (kv', .ok ())) :
    Kv.update ops kv' k v2 = (kv', .error .sizeMismatch) ∧
    Kv.get ops kv' k v1.length = .ok (some v1) := by
  obtain ⟨hv', sv'⟩ := kv'
  have hinv := Kv_pair_inv kv.hasher (insertRaw kv.store (hashKey ops kv.hasher k) v1) ⟨hv', sv'⟩ (.ok ()) h
  have hh' : hv' = kv.hasher := hinv.1
  subst hh'
  obtain ⟨hnone, _, _⟩ := insertRaw_ok_inv kv.store sv' rs (hashKey ops kv.hasher k) v1 hwf hinv.2
  have hw := WF_insert kv.store sv' rs (hashKey ops kv.hasher k) v1 hwf (hashKey_lt ops kv.hasher k) hinv.2
  constructor
  · have hm := updateRaw_mismatch sv' (rs ++ [(hashKey ops kv.hasher k, v1)]) rs []
      (hashKey ops kv.hasher k) v1 v2 hw rfl hnone hne
    show ((⟨kv.hasher, (updateRaw sv' (hashKey ops kv.hasher k) v2).1⟩ : Kv η),
        (updateRaw sv' (hashKey ops kv.hasher k) v2).2) = (⟨kv.hasher, sv'⟩, .error .sizeMismatch)
    rw [hm]
  · show getRaw sv' (hashKey ops kv.hasher k) v1.length = .ok (some v1)
    exact getRaw_found sv' (rs ++ [(hashKey ops kv.hasher k, v1)]) rs [] (hashKey ops kv.hasher k) v1 hw rfl hnone

/-- Claim C6 witness: insert a 1-byte value, update with a 2-byte value. -/
theorem C6_witness :
    Kv.update unitOps (Kv.insert unitOps ⟨(), List.replicate 32 0⟩ [] [7]).1 [] [1, 2]
      = ((Kv.insert unitOps ⟨(), List.replicate 32 0⟩ [] [7]).1, .error .sizeMismatch) ∧
    Kv.get unitOps (Kv.insert unitOps ⟨(), List.replicate 32 0⟩ [] [7]).1 [] 1 = .ok (some [7]) := by
  have h := C6_size_mismatch_update unitOps ⟨(), List.replicate 32 0⟩
    (Kv.insert unitOps ⟨(), List.replicate 32 0⟩ [] [7]).1 [] [7] [1, 2] [] WF_empty32 (by decide) rfl
  simpa using h

/-- The store after inserting the byte 7 under hash 0 is well formed and
    holds exactly that record. -/
theorem WF_one7 : WF ((Kv.insert unitOps ⟨(), List.replicate 32 0⟩ [] [7]).1.store) [(0, [7])] :=
  ⟨⟨List.replicate 15 0, by rfl⟩, by decide, by decide, by simp [KeyOk]⟩

/-- Claim C5 amended: tombstone finality for keys whose 32-bit hash is
    not the sentinel — after a successful forget, exists returns false and
    a second forget fails with NotFound, leaving the handle unchanged.
    (For a key hashing to the sentinel 0xFFFFFFFF the original claim
    fails; see the counterexample.) -/
theorem C5_tombstone {η : Type} (ops : HasherOps η) (kv kv' : Kv η) (k : List Nat)
    (rs : List (Nat × List Nat)) (hwf : WF kv.store rs)
    (hsent : hashKey ops kv.hasher k ≠ tombKey)
    (h : Kv.forget ops kv k = (kv', .ok ())) :
    Kv.existsKv ops kv' k = .ok false ∧ Kv.forget ops kv' k = (kv', .error .notFound) := by
  obtain ⟨hv', sv'⟩ := kv'
  have hinv := Kv_pair_inv kv.hasher (forgetRaw kv.store (hashKey ops kv.hasher k)) ⟨hv', sv'⟩ (.ok ()) h
  have hh' : hv' = kv.hasher := hinv.1
  subst hh'
  obtain ⟨l1, d, l2, hrs, hfirst⟩ := forgetRaw_ok_inv kv.store sv' rs (hashKey ops kv.hasher k) hwf hinv.2
  have hw := WF_forget kv.store sv' rs l1 l2 (hashKey ops kv.hasher k) d hwf hrs hfirst hinv.2
  have huniq := hwf.uniq
  rw [hrs] at huniq
  have hnone := tomb_not_found rs l1 l2 (hashKey ops kv.hasher k) d huniq hfirst hsent
  constructor
  · show existsRaw sv' (hashKey ops kv.hasher k) = .ok false
    exact existsRaw_false sv' (l1 ++ (tombKey, List.replicate d.length 255) :: l2)
      (hashKey ops kv.hasher k) hw hnone
  · have hnf := forgetRaw_notFound sv' (l1 ++ (tombKey, List.replicate d.length 255) :: l2)
      (hashKey ops kv.hasher k) hw hnone
    show ((⟨kv.hasher, (forgetRaw sv' (hashKey ops kv.hasher k)).1⟩ : Kv η),
        (forgetRaw sv' (hashKey ops kv.hasher k)).2) = (⟨kv.hasher, sv'⟩, .error .notFound)
    rw [hnf]

/-- Claim C5 witness: insert then forget at hash 0; exists is false and a
    second forget fails with NotFound. -/
theorem C5_witness :
    Kv.existsKv unitOps (Kv.forget unitOps (Kv.insert unitOps ⟨(), List.replicate 32 0⟩ [] [7]).1 []).1 []
      = .ok false ∧
    Kv.forget unitOps (Kv.forget unitOps (Kv.insert unitOps ⟨(), List.replicate 32 0⟩ [] [7]).1 []).1 []
      = ((Kv.forget unitOps (Kv.insert unitOps ⟨(), List.replicate 32 0⟩ [] [7]).1 []).1,
        .error .notFound) :=
  C5_tombstone unitOps (Kv.insert unitOps ⟨(), List.replicate 32 0⟩ [] [7]).1
    (Kv.forget unitOps (Kv.insert unitOps ⟨(), List.replicate 32 0⟩ [] [7]).1 []).1 []
    [(0, [7])] WF_one7 (by decide) rfl

/-- Claim C7: reset clears visibility, not bytes — after a successful
    insert, reset succeeds, exists for the key is false, both header
    fields read back 0, the bytes from address 8 on are untouched, and a
    subsequent insert of the same key and value succeeds again. -/
theorem C7_reset {η : Type} (ops : HasherOps η) (kv kv' : Kv η) (k v : List Nat)
    (rs : List (Nat × List Nat)) (hwf : WF kv.store rs)
    (h : Kv.insert ops kv k v = (kv', .ok ())) :
    (Kv.reset kv').2 = .ok () ∧
    Kv.existsKv ops (Kv.reset kv').1 k = .ok false ∧
    sizeOp (Kv.reset kv').1.store = .ok 0 ∧
    amountOp (Kv.reset kv').1.store = .ok 0 ∧
    (Kv.reset kv').1.store.drop 8 = kv'.store.drop 8 ∧
    (Kv.insert ops (Kv.reset kv').1 k v).2 = .ok () := by
  obtain ⟨hv', sv'⟩ := kv'
  have hinv := Kv_pair_inv kv.hasher (insertRaw kv.store (hashKey ops kv.hasher k) v) ⟨hv', sv'⟩ (.ok ()) h
  have hh' : hv' = kv.hasher := hinv.1
  subst hh'
  obtain ⟨hnone, hsp, hshape⟩ := insertRaw_ok_inv kv.store sv' rs (hashKey ops kv.hasher k) v hwf hinv.2
  have hw := WF_insert kv.store sv' rs (hashKey ops kv.hasher k) v hwf (hashKey_lt ops kv.hasher k) hinv.2
  have hreset := resetRaw_ok sv' (rs ++ [(hashKey ops kv.hasher k, v)]) hw
  have hw0 := WF_reset sv' (rs ++ [(hashKey ops kv.hasher k, v)]) hw
  have hkvr : Kv.reset (⟨kv.hasher, sv'⟩ : Kv η)
      = (⟨kv.hasher, toBytes 0 ++ toBytes 0 ++ sv'.drop 8⟩, .ok ()) := by
    show ((⟨kv.hasher, (resetRaw sv').1⟩ : Kv η), (resetRaw sv').2) = _
    rw [hreset]
  rw [hkvr]
  have hslen : sv'.length = kv.store.length := by
    rw [hshape]
    simp only [List.length_append, toBytes_length, encRec_length, List.length_drop]
    omega
  refine ⟨rfl, ?_, ?_, ?_, ?_, ?_⟩
  · show existsRaw (toBytes 0 ++ toBytes 0 ++ sv'.drop 8) (hashKey ops kv.hasher k) = .ok false
    exact existsRaw_false (toBytes 0 ++ toBytes 0 ++ sv'.drop 8) [] (hashKey ops kv.hasher k) hw0 (by simp)
  · have hs := hw0.size_read
    simpa [sizeOp, encRecs] using hs
  · have ha := hw0.amount_read
    simpa [amountOp] using ha
  · show (toBytes 0 ++ toBytes 0 ++ sv'.drop 8).drop 8 = sv'.drop 8
    have hd := drop_app (toBytes 0 ++ toBytes 0) (sv'.drop 8)
    rw [show ((toBytes 0 ++ toBytes 0 : List Nat)).length = 8 from rfl] at hd
    exact hd
  · have hsp0 : 16 + (encRecs ([] : List (Nat × List Nat))).length + v.length
        ≤ (toBytes 0 ++ toBytes 0 ++ sv'.drop 8).length := by
      simp only [encRecs, List.length_nil, List.length_append, toBytes_length, List.length_drop]
      omega
    have hins := insertRaw_ok_of (toBytes 0 ++ toBytes 0 ++ sv'.drop 8) [] (hashKey ops kv.hasher k) v
      hw0 (by simp) hsp0
    show (insertRaw (toBytes 0 ++ toBytes 0 ++ sv'.drop 8) (hashKey ops kv.hasher k) v).2 = .ok ()
    rw [hins]

/-- Claim C7 witness: insert then reset at a concrete 32-byte store. -/
theorem C7_witness :
    (Kv.reset (Kv.insert unitOps ⟨(), List.replicate 32 0⟩ [] [7]).1).2 = .ok () ∧
    Kv.existsKv unitOps (Kv.reset (Kv.insert unitOps ⟨(), List.replicate 32 0⟩ [] [7]).1).1 []
      = .ok false ∧
    sizeOp (Kv.reset (Kv.insert unitOps ⟨(), List.replicate 32 0⟩ [] [7]).1).1.store = .ok 0 ∧
    amountOp (Kv.reset (Kv.insert unitOps ⟨(), List.replicate 32 0⟩ [] [7]).1).1.store = .ok 0 ∧
    (Kv.reset (Kv.insert unitOps ⟨(), List.replicate 32 0⟩ [] [7]).1).1.store.drop 8
      = (Kv.insert unitOps ⟨(), List.replicate 32 0⟩ [] [7]).1.store.drop 8 ∧
    (Kv.insert unitOps (Kv.reset (Kv.insert unitOps ⟨(), List.replicate 32 0⟩ [] [7]).1).1 [] [7]).2
      = .ok () :=
  C7_reset unitOps ⟨(), List.replicate 32 0⟩ (Kv.insert unitOps ⟨(), List.replicate 32 0⟩ [] [7]).1
    [] [7] [] WF_empty32 rfl

/-- A hasher model whose state is the byte string fed so far: the key [0]
    hashes to 1, every other key hashes to the sentinel value. Such a
    hasher is a legitimate instance of the pluggable hashing capability. -/
def listOps : HasherOps (List Nat) :=
  ⟨fun h k => h ++ k, fun h => if h = [0] then 1 else tombKey⟩

/-- Claim C5 counterexample: with a hasher that sends the key [1] to the
    sentinel 0xFFFFFFFF, insert of [1] succeeds, forget of [1] succeeds,
    but a second forget of [1] succeeds again (the claim requires NotFound)
    and exists still reports true after the first successful forget. -/
theorem C5_counterexample :
    (Kv.insert listOps ⟨[], List.replicate 32 0⟩ [1] [7]).2 = .ok () ∧
    (Kv.forget listOps (Kv.insert listOps ⟨[], List.replicate 32 0⟩ [1] [7]).1 [1]).2 = .ok () ∧
    (Kv.forget listOps
      (Kv.forget listOps (Kv.insert listOps ⟨[], List.replicate 32 0⟩ [1] [7]).1 [1]).1 [1]).2
      = .ok () ∧
    Kv.existsKv listOps
      (Kv.forget listOps (Kv.insert listOps ⟨[], List.replicate 32 0⟩ [1] [7]).1 [1]).1 [1]
      = .ok true :=
  ⟨rfl, rfl, rfl, rfl⟩

/-- Claim C8 counterexample: reachable through public operations — insert
    the key [0] (hash 1), forget it (the record at address 8 becomes a
    tombstone, key field 0xFFFFFFFF), then exists of the never-inserted
    key [1], whose hash is the sentinel, finds the tombstoned record and
    reports true: the scan does report a tombstone for a sentinel target. -/
theorem C8_counterexample :
    (Kv.insert listOps ⟨[], List.replicate 32 0⟩ [0] [7]).2 = .ok () ∧
    (Kv.forget listOps (Kv.insert listOps ⟨[], List.replicate 32 0⟩ [0] [7]).1 [0]).2 = .ok () ∧
    readU32 (Kv.forget listOps (Kv.insert listOps ⟨[], List.replicate 32 0⟩ [0] [7]).1 [0]).1.store 8
      = .ok tombKey ∧
    Kv.existsKv listOps
      (Kv.forget listOps (Kv.insert listOps ⟨[], List.replicate 32 0⟩ [0] [7]).1 [0]).1 [1]
      = .ok true :=
  ⟨rfl, rfl, rfl, rfl⟩

/-- Claim C8 amended: for every target hash other than the sentinel
    0xFFFFFFFF, the scan never reports a tombstoned record — on a well
    formed store, whenever find returns an address, the key field stored
    at that address equals the target hash, hence is not the sentinel. -/
theorem C8_no_tombstone_found (s : List Nat) (rs : List (Nat × List Nat)) (key a : Nat)
    (hwf : WF s rs) (hkt : key ≠ tombKey) (h : find s key = .ok (some a)) :
    readU32 s a = .ok key ∧ readU32 s a ≠ .ok tombKey := by
  rw [find_spec s rs key hwf] at h
  injection h with h'
  obtain ⟨l1, r, l2, hrs, hkey, hfirst, ha⟩ := findModel_some_split rs key a 8 h'
  obtain ⟨rk, rd⟩ := r
  have hk2 : key = rk := hkey
  subst hk2
  obtain ⟨pad, hlay⟩ := hwf.layout
  have hkey_lt : key < u32Mod := hwf.keys_lt (key, rd) (by rw [hrs]; simp)
  have hplen : (toBytes (encRecs rs).length ++ toBytes rs.length ++ encRecs l1).length
      = 8 + (encRecs l1).length := by
    simp only [List.length_append, toBytes_length]
  have hlayK : s = toBytes (encRecs rs).length ++ toBytes rs.length ++ encRecs l1 ++ toBytes key
      ++ (toBytes rd.length ++ (rd ++ (encRecs l2 ++ pad))) := by
    rw [hlay, hrs, encRecs_append]
    simp only [encRecs, encRec, List.append_assoc]
  have hread : readU32 s (8 + (encRecs l1).length) = .ok key := by
    rw [hlayK, ← hplen]
    exact readU32_at _ _ _ hkey_lt
  constructor
  · rw [ha]
    exact hread
  · intro hcon
    rw [ha, hread] at hcon
    injection hcon with h3
    exact hkt h3

/-- Claim C8 witness: a live record found by the scan carries its own key
    field, not the sentinel. -/
theorem C8_witness :
    readU32 (Kv.insert unitOps ⟨(), List.replicate 32 0⟩ [] [7]).1.store 8 = .ok 0 ∧
    readU32 (Kv.insert unitOps ⟨(), List.replicate 32 0⟩ [] [7]).1.store 8 ≠ .ok tombKey :=
  C8_no_tombstone_found (Kv.insert unitOps ⟨(), List.replicate 32 0⟩ [] [7]).1.store
    [(0, [7])] 0 8 WF_one7 (by decide) rfl

/-- Claim C9 counterexample: reset does decrement the amount header — a
    store holding one record reads amount 1; after reset it reads 0,
    although one record header has been appended over its lifetime. -/
theorem C9_counterexample :
    amountOp (Kv.insert unitOps ⟨(), List.replicate 32 0⟩ [] [7]).1.store = .ok 1 ∧
    (Kv.reset (Kv.insert unitOps ⟨(), List.replicate 32 0⟩ [] [7]).1).2 = .ok () ∧
    amountOp (Kv.reset (Kv.insert unitOps ⟨(), List.replicate 32 0⟩ [] [7]).1).1.store = .ok 0 :=
  ⟨rfl, rfl, rfl⟩

/-- Claim C9 amended: in every store state reachable through the public
    operations, the amount header equals the exact number of record
    headers appended since the most recent reset (or since construction);
    within one reset epoch it never decreases, and only reset lowers it. -/
theorem C9_amount_reach {η : Type} (ops : HasherOps η) (kv : Kv η) (n : Nat)
    (h : Reach ops kv n) : amountOp kv.store = .ok n := by
  obtain ⟨rs, hwf, hn⟩ := Reach_WF ops kv n h
  rw [← hn]
  exact hwf.amount_read

/-- Claim C9 witness: the freshly constructed store reads amount 0. -/
theorem C9_witness : amountOp ((⟨(), List.replicate 8 0⟩ : Kv Unit)).store = .ok 0 :=
  C9_amount_reach unitOps ⟨(), List.replicate 8 0⟩ 0 (Reach.init () 8 (by decide) (by decide))

/-- Claim C10: hashing is deterministic within a store handle — each
    public mutating operation returns a handle with the hasher component
    unchanged (hash_key only clones the stored hasher), the hash computed
    for a key after an insert equals the hash computed before it, and
    hash_key applied to equal keys on equal handles yields equal results. -/
theorem C10_hash_stable {η : Type} (ops : HasherOps η) (kv : Kv η) (k k' v : List Nat)
    (heq : k = k') :
    (Kv.insert ops kv k v).1.hasher = kv.hasher ∧
    (Kv.update ops kv k v).1.hasher = kv.hasher ∧
    (Kv.forget ops kv k).1.hasher = kv.hasher ∧
    (Kv.reset kv).1.hasher = kv.hasher ∧
    hashKey ops (Kv.insert ops kv k v).1.hasher k = hashKey ops kv.hasher k ∧
    hashKey ops kv.hasher k = hashKey ops kv.hasher k' := by
  subst heq
  exact ⟨rfl, rfl, rfl, rfl, rfl, rfl⟩

/-- Claim C10 witness at a concrete handle and key. -/
theorem C10_witness :
    (Kv.insert unitOps ⟨(), List.replicate 32 0⟩ [3] [7]).1.hasher
        = (⟨(), List.replicate 32 0⟩ : Kv Unit).hasher ∧
    (Kv.update unitOps ⟨(), List.replicate 32 0⟩ [3] [7]).1.hasher
        = (⟨(), List.replicate 32 0⟩ : Kv Unit).hasher ∧
    (Kv.forget unitOps ⟨(), List.replicate 32 0⟩ [3]).1.hasher
        = (⟨(), List.replicate 32 0⟩ : Kv Unit).hasher ∧
    (Kv.reset (⟨(), List.replicate 32 0⟩ : Kv Unit)).1.hasher
        = (⟨(), List.replicate 32 0⟩ : Kv Unit).hasher ∧
    hashKey unitOps (Kv.insert unitOps ⟨(), List.replicate 32 0⟩ [3] [7]).1.hasher [3]
        = hashKey unitOps (⟨(), List.replicate 32 0⟩ : Kv Unit).hasher [3] ∧
    hashKey unitOps (⟨(), List.replicate 32 0⟩ : Kv Unit).hasher [3]
        = hashKey unitOps (⟨(), List.replicate 32 0⟩ : Kv Unit).hasher [3] :=
  C10_hash_stable unitOps ⟨(), List.replicate 32 0⟩ [3] [3] [7] rfl
